import Mathlib

/- Shallow embedding of the advanced geographic classifier
   (advanced_geographic_classifier.py).  Python strings are modelled as
   lists of characters, the networkx DiGraph as insertion-ordered
   association lists of nodes and edges, and the optional NLP capabilities
   (spaCy recognizer, sentence embeddings, sklearn classifier) as injected
   parameters whose calls may fail (modelled with Except).

   Python floats are modelled as exact fractions (Flt below): an integer
   numerator and denominator, compared and equated by cross multiplication,
   so that every numeric value the program computes is represented by its
   exact rational value.  Flt.toRat maps a fraction to the rational number
   it denotes. -/

namespace AGC

/- ------------------------------------------------------------------ -/
/- Exact fractional numbers standing in for Python floats. -/

structure Flt where
  num : Int
  den : Int
deriving DecidableEq

def flt (n d : Int) : Flt := ⟨n, d⟩

def fadd (x y : Flt) : Flt := ⟨x.num * y.den + y.num * x.den, x.den * y.den⟩

def fsub (x y : Flt) : Flt := ⟨x.num * y.den - y.num * x.den, x.den * y.den⟩

def fmul (x y : Flt) : Flt := ⟨x.num * y.num, x.den * y.den⟩

def fdiv (x y : Flt) : Flt := ⟨x.num * y.den, x.den * y.num⟩

/- Value comparisons (valid for the positive denominators the program
   produces). -/
def fle (x y : Flt) : Bool := decide (x.num * y.den ≤ y.num * x.den)

def flt_lt (x y : Flt) : Bool := decide (x.num * y.den < y.num * x.den)

def feq (x y : Flt) : Bool := decide (x.num * y.den = y.num * x.den)

/- Python min(a, b) and max(a, b). -/
def fmin (a b : Flt) : Flt := if fle a b then a else b

def fmax (a b : Flt) : Flt := if flt_lt a b then b else a

/- The rational value denoted by a fraction. -/
def Flt.toRat (x : Flt) : ℚ := (x.num : ℚ) / (x.den : ℚ)

/- ------------------------------------------------------------------ -/
/- Python strings as character lists. -/

abbrev Str := List Char

def str (s : String) : Str := s.toList

/- Python str.lower (ASCII view). -/
def lower (s : Str) : Str := s.map Char.toLower

/- Python substring test: needle in hay. -/
def containsSub (needle : Str) : Str → Bool
  | [] => needle.isPrefixOf []
  | c :: rest => needle.isPrefixOf (c :: rest) || containsSub needle rest

/- Python str.find restricted to the case where the needle occurs:
   index of the first occurrence. -/
def findSub (needle : Str) : Str → Nat
  | [] => 0
  | c :: rest => if needle.isPrefixOf (c :: rest) then 0 else findSub needle rest + 1

/- Characters matched by the regex class backslash-w (ASCII view). -/
def is_word_char (c : Char) : Bool := c.isAlphanum || c = '_'

/- Characters matched by the regex class backslash-s (ASCII view). -/
def is_space_char (c : Char) : Bool :=
  c = ' ' || c = '\t' || c = '\n' || c = '\x0d' || c = '\x0b' || c = '\x0c'

def next_word (s : Str) : Bool :=
  match s with
  | [] => false
  | c :: _ => is_word_char c

def last_word (prevw : Bool) (l : Str) : Bool :=
  match l.getLast? with
  | some c => is_word_char c
  | none => prevw

/- Continuation-style matchers for the concrete regular expressions used by
   the classifier.  A matcher takes the wordness of the previous character
   and the remaining text.  The patterns in the source only use literals
   (re.escape), one-or-more-whitespace, word boundaries and alternations of
   literals, so these combinators model them exactly. -/

/- Matches one or more whitespace characters, then the continuation. -/
def after_ws (k : Str → Bool) : Str → Bool
  | [] => false
  | c :: rest => is_space_char c && (k rest || after_ws k rest)

/- Matches a literal (a re.escape'd fragment), then the continuation. -/
def lit_then (l : Str) (k : Bool → Str → Bool) (prevw : Bool) (s : Str) : Bool :=
  l.isPrefixOf s && k (last_word prevw l) (s.drop l.length)

/- A word boundary, then the continuation. -/
def bnd_then (k : Bool → Str → Bool) (prevw : Bool) (s : Str) : Bool :=
  (prevw != next_word s) && k prevw s

/- One-or-more whitespace, then the continuation. -/
def ws_then (k : Bool → Str → Bool) (_prevw : Bool) (s : Str) : Bool :=
  after_ws (k false) s

/- An alternation of literals, then the continuation. -/
def alt_then (ls : List Str) (k : Bool → Str → Bool) (prevw : Bool) (s : Str) : Bool :=
  ls.any (fun l => l.isPrefixOf s && k (last_word prevw l) (s.drop l.length))

/- End of pattern. -/
def pat_end (_prevw : Bool) (_s : Str) : Bool := true

/- End of pattern at a word boundary. -/
def bnd_end (prevw : Bool) (s : Str) : Bool := prevw != next_word s

/- re.search: try the matcher at every position of the text. -/
def search_from (m : Bool → Str → Bool) (prevw : Bool) : Str → Bool
  | [] => m prevw []
  | c :: rest => m prevw (c :: rest) || search_from m (is_word_char c) rest

def re_search (m : Bool → Str → Bool) (s : Str) : Bool := search_from m false s

/- ------------------------------------------------------------------ -/
/- HierarchicalGeographicGraph: a networkx DiGraph with node attributes
   type, aliases, coordinates, plus the classifier's place_to_type dict. -/

structure PlaceData where
  ptype : Option Str
  aliases : List Str
  coordinates : Option (Flt × Flt)
deriving DecidableEq

def empty_attrs : PlaceData := ⟨none, [], none⟩

structure GeoGraph where
  nodes : List (Str × PlaceData)
  edges : List (Str × Str)
  place_to_type : List (Str × Str)
deriving DecidableEq

def emptyGraph : GeoGraph := ⟨[], [], []⟩

def has_node (g : GeoGraph) (p : Str) : Bool :=
  g.nodes.any (fun pd => decide (pd.1 = p))

def node_data (g : GeoGraph) (p : Str) : Option PlaceData :=
  (g.nodes.find? (fun pd => decide (pd.1 = p))).map (·.2)

def assoc_get (l : List (Str × Str)) (k : Str) : Option Str :=
  (l.find? (fun kv => decide (kv.1 = k))).map (·.2)

def assoc_set (l : List (Str × Str)) (k v : Str) : List (Str × Str) :=
  if l.any (fun kv => decide (kv.1 = k)) then
    l.map (fun kv => if kv.1 = k then (k, v) else kv)
  else l ++ [(k, v)]

/- networkx add_node with all attribute keys supplied: inserts the node at
   the end of the insertion order, or overwrites the attributes in place. -/
def upsert_node (nodes : List (Str × PlaceData)) (name : Str) (d : PlaceData) :
    List (Str × PlaceData) :=
  if nodes.any (fun pd => decide (pd.1 = name)) then
    nodes.map (fun pd => if pd.1 = name then (name, d) else pd)
  else nodes ++ [(name, d)]

/- networkx add_edge implicitly creates missing endpoints as nodes with an
   empty attribute dict (no type, no aliases, no coordinates). -/
def ensure_node (nodes : List (Str × PlaceData)) (name : Str) :
    List (Str × PlaceData) :=
  if nodes.any (fun pd => decide (pd.1 = name)) then nodes
  else nodes ++ [(name, empty_attrs)]

def add_edge (g : GeoGraph) (u v : Str) : GeoGraph :=
  let ns := ensure_node (ensure_node g.nodes u) v
  let es := if g.edges.any (fun e => decide (e = (u, v))) then g.edges
            else g.edges ++ [(u, v)]
  { g with nodes := ns, edges := es }

/- HierarchicalGeographicGraph.add_place. -/
def add_place (g : GeoGraph) (place ptype : Str) (parent : Option Str)
    (aliases : Option (List Str)) (coords : Option (Flt × Flt)) : GeoGraph :=
  let g1 : GeoGraph :=
    { g with nodes := upsert_node g.nodes place ⟨some ptype, aliases.getD [], coords⟩,
             place_to_type := assoc_set g.place_to_type place ptype }
  match parent with
  | some p => add_edge g1 p place
  | none => g1

/- HierarchicalGeographicGraph.get_parents: direct predecessors. -/
def get_parents (g : GeoGraph) (p : Str) : List Str :=
  (g.edges.filter (fun uv => decide (uv.2 = p))).map (·.1)

/- HierarchicalGeographicGraph.get_children: direct successors. -/
def get_children (g : GeoGraph) (p : Str) : List Str :=
  (g.edges.filter (fun uv => decide (uv.1 = p))).map (·.2)

/- nx.ancestors: every node with a directed path to p.  Computed as an
   iterated closure of get_parents; the edge count bounds the iteration.
   An unknown node raises NetworkXError in the source, which the caller
   catches and converts to the empty list. -/
def anc_step (g : GeoGraph) (s : List Str) : List Str :=
  (s ++ s.flatMap (fun q => get_parents g q)).dedup

def anc_iter (g : GeoGraph) : Nat → List Str → List Str
  | 0, s => s
  | n + 1, s => anc_iter g n (anc_step g s)

def get_all_ancestors (g : GeoGraph) (p : Str) : List Str :=
  if has_node g p then anc_iter g g.edges.length (get_parents g p) else []

/- HierarchicalGeographicGraph.resolve_ambiguous_reference: every control
   path returns the input place unchanged. -/
def resolve_ambiguous_reference (g : GeoGraph) (place : Str) (ctx : List Str) : Str :=
  if ¬ (has_node g place = true) then place
  else if ctx.any (fun c => has_node g c &&
      (decide (place ∈ get_all_ancestors g c) || decide (place ∈ get_children g c))) then
    place
  else place

theorem resolve_ambiguous_reference_eq (g : GeoGraph) (place : Str) (ctx : List Str) :
    resolve_ambiguous_reference g place ctx = place := by
  unfold resolve_ambiguous_reference
  split <;> [rfl; split <;> rfl]

/- ------------------------------------------------------------------ -/
/- GeographicEntity and the injected capabilities. -/

structure Entity where
  text : Str
  official_name : Str
  entity_type : Str
  confidence : Flt
  position : Nat
  context : Str
  syntactic_role : Str
  semantic_context : Str
  parent_entities : List Str
  coordinates : Option (Flt × Flt)
deriving DecidableEq

/- Python dataclass equality: field-wise, with float fields compared by
   numeric value. -/
def entity_eqv (x y : Entity) : Bool :=
  decide (x.text = y.text) && decide (x.official_name = y.official_name) &&
  decide (x.entity_type = y.entity_type) && feq x.confidence y.confidence &&
  decide (x.position = y.position) && decide (x.context = y.context) &&
  decide (x.syntactic_role = y.syntactic_role) &&
  decide (x.semantic_context = y.semantic_context) &&
  decide (x.parent_entities = y.parent_entities) &&
  decide (x.coordinates = y.coordinates)

/- Output of the named-entity-recognition capability for one entity:
   surface text, spaCy label, character span, dependency label of the
   span's root token. -/
structure RawEnt where
  text : Str
  label : Str
  start_char : Nat
  end_char : Nat
  dep : Str
deriving DecidableEq

/- The optional capabilities, as their responses for one document:
   the recognizer response (absent, failing, or a list of raw entities),
   the sentence-embedding similarity oracle (absent, or a possibly failing
   function from (document text, probe sentence) to a similarity score),
   and whether the sklearn classifier object exists. -/
structure Capabilities where
  recognizer : Option (Except String (List RawEnt))
  sim : Option (Str → Str → Except String Flt)
  ml_present : Bool

instance {ε α : Type _} [DecidableEq ε] [DecidableEq α] : DecidableEq (Except ε α) :=
  fun x y =>
  match x, y with
  | Except.ok a, Except.ok b =>
    if h : a = b then Decidable.isTrue (by rw [h])
    else Decidable.isFalse (fun hc => h (by cases hc; rfl))
  | Except.error a, Except.error b =>
    if h : a = b then Decidable.isTrue (by rw [h])
    else Decidable.isFalse (fun hc => h (by cases hc; rfl))
  | Except.ok _, Except.error _ => Decidable.isFalse (fun hc => Except.noConfusion hc)
  | Except.error _, Except.ok _ => Decidable.isFalse (fun hc => Except.noConfusion hc)

theorem except_bind_ok {α β : Type _} (a : α) (f : α → Except String β) :
    (Except.ok a >>= f) = f a := rfl

/- ------------------------------------------------------------------ -/
/- _extract_context. -/

def extract_context (text : Str) (start stop window : Nat) : Str :=
  let a := start - window
  let b := min text.length (stop + window)
  (text.drop a).take (b - a)

/- _fuzzy_match. -/

def char_set_inter (t1 t2 : Str) : Nat :=
  (t1.dedup.filter (fun c => decide (c ∈ t2))).length

def char_set_union (t1 t2 : Str) : Nat :=
  ((t1 ++ t2).dedup).length

def fuzzy_match (t1 t2 : Str) (threshold : Flt) : Bool :=
  if t1.length = 0 ∨ t2.length = 0 then false
  else if containsSub t1 t2 || containsSub t2 t1 then true
  else fle threshold (fdiv (flt (char_set_inter t1 t2) 1) (flt (char_set_union t1 t2) 1))

/- _resolve_to_official_name: three passes over the node list, first hit
   wins: exact case-insensitive name, case-insensitive alias, fuzzy. -/

def resolve_to_official_name (g : GeoGraph) (text : Str) : Option Str :=
  let tl := lower text
  match g.nodes.find? (fun pd => decide (lower pd.1 = tl)) with
  | some pd => some pd.1
  | none =>
    match g.nodes.find? (fun pd => pd.2.aliases.any (fun a => decide (lower a = tl))) with
    | some pd => some pd.1
    | none => (g.nodes.find? (fun pd => fuzzy_match tl (lower pd.1) (flt 9 10))).map (·.1)

/- _analyze_syntactic_role, from the dependency label of the span root. -/

def analyze_syntactic_role (dep : Str) : Str :=
  if dep = str "nsubj" ∨ dep = str "nsubjpass" then str "subject"
  else if dep = str "dobj" ∨ dep = str "pobj" then str "object"
  else if dep = str "amod" ∨ dep = str "compound" then str "modifier"
  else dep

/- _is_geographic_entity: the four organizational/sports/institutional cue
   regexes (note: three of them interpolate the surface text verbatim while
   the searched document text is lowercased), then the five geographic
   indicator regexes, then a syntactic-role heuristic, then default True. -/

def non_geo_cue_list (text : Str) : List (Bool → Str → Bool) :=
  [ bnd_then (lit_then text (ws_then (alt_then
      [str "team", str "steelers", str "pirates", str "penguins"] bnd_end))),
    lit_then (str "university") (ws_then (lit_then (str "of")
      (ws_then (lit_then (lower text) pat_end)))),
    bnd_then (lit_then text (ws_then (alt_then
      [str "company", str "corporation", str "inc", str "llc"] bnd_end))),
    bnd_then (lit_then text (ws_then (alt_then
      [str "school", str "high school", str "elementary"] bnd_end))) ]

def geo_cue_list (text : Str) : List (Bool → Str → Bool) :=
  [ bnd_then (lit_then (str "in") (ws_then (lit_then (lower text) pat_end))),
    bnd_then (lit_then (str "near") (ws_then (lit_then (lower text) pat_end))),
    bnd_then (lit_then (str "from") (ws_then (lit_then (lower text) pat_end))),
    bnd_then (lit_then (lower text) (ws_then (alt_then
      [str "neighborhood", str "community", str "area", str "residents"] pat_end))),
    bnd_then (lit_then (lower text) (ws_then (alt_then
      [str "officials", str "government", str "council"] pat_end))) ]

def has_non_geo_cue (text full_text : Str) : Bool :=
  (non_geo_cue_list text).any (fun m => re_search m (lower full_text))

def has_geo_cue (text full_text : Str) : Bool :=
  (geo_cue_list text).any (fun m => re_search m (lower full_text))

def is_geographic_entity (text role full_text : Str) : Bool :=
  if has_non_geo_cue text full_text then false
  else if has_geo_cue text full_text then true
  else if role = str "object" &&
      [str "in", str "at", str "near", str "from"].any
        (fun w => containsSub w (lower full_text)) then true
  else true

/- ------------------------------------------------------------------ -/
/- Candidate extraction. -/

/- _basic_entity_extraction: fallback scan of every known place name. -/

def mk_basic_entity (g : GeoGraph) (text : Str) (place : Str) : Entity :=
  let tl := lower text
  let position := findSub (lower place) tl
  { text := place,
    official_name := place,
    entity_type := (assoc_get g.place_to_type place).getD (str "unknown"),
    confidence := flt 3 5,
    position := position,
    context := extract_context text position (position + place.length) 50,
    syntactic_role := str "unknown",
    semantic_context := str "unknown",
    parent_entities := get_parents g place,
    coordinates := none }

def basic_entity_extraction (g : GeoGraph) (text : Str) : List Entity :=
  g.nodes.foldl (fun acc pd =>
    if containsSub (lower pd.1) (lower text) then acc ++ [mk_basic_entity g text pd.1]
    else acc) []

/- extract_named_entities, recognizer-backed path: keep GPE/LOC/ORG spans,
   classify the syntactic role, apply the geographic-plausibility filter,
   resolve to an official name, drop the candidate on resolution failure.
   A failure of the recognizer itself is not caught anywhere. -/

def mk_ner_entity (g : GeoGraph) (text : Str) (ent : RawEnt) (role name : Str) : Entity :=
  { text := ent.text,
    official_name := name,
    entity_type := (assoc_get g.place_to_type name).getD (str "unknown"),
    confidence := flt 4 5,
    position := ent.start_char,
    context := extract_context text ent.start_char ent.end_char 50,
    syntactic_role := role,
    semantic_context := str "geographic",
    parent_entities := get_parents g name,
    coordinates := none }

def ner_step (g : GeoGraph) (text : Str) (acc : List Entity) (ent : RawEnt) :
    List Entity :=
  if ent.label = str "GPE" ∨ ent.label = str "LOC" ∨ ent.label = str "ORG" then
    let role := analyze_syntactic_role ent.dep
    if is_geographic_entity ent.text role text then
      match resolve_to_official_name g ent.text with
      | some name => acc ++ [mk_ner_entity g text ent role name]
      | none => acc
    else acc
  else acc

def extract_named_entities (g : GeoGraph) (recognizer : Option (Except String (List RawEnt)))
    (text : Str) : Except String (List Entity) :=
  match recognizer with
  | none => Except.ok (basic_entity_extraction g text)
  | some resp => do
    let ents ← resp
    Except.ok (ents.foldl (ner_step g text) [])

/- ------------------------------------------------------------------ -/
/- semantic_context_analysis.  The similarity capability is queried on the
   document against each instantiated template; any raised error aborts the
   whole loop (the stage's try/except), keeping the updates already made. -/

def geo_templates : List (Str → Str) :=
  [ fun p => str "residents of " ++ p ++ str " gathered",
    fun p => str "officials in " ++ p ++ str " announced",
    fun p => str "neighborhood of " ++ p ++ str " sees",
    fun p => str "community in " ++ p ++ str " organized",
    fun p => p ++ str " area development",
    fun p => str "near " ++ p ++ str " location",
    fun p => str "from " ++ p ++ str " community" ]

def non_geo_templates : List (Str → Str) :=
  [ fun p => p ++ str " team won championship",
    fun p => str "University of " ++ p ++ str " students",
    fun p => p ++ str " company announced",
    fun p => p ++ str " school district",
    fun p => p ++ str " organization meeting" ]

/- Python max over a possibly empty score list, with the source's
   "if scores else 0" guard. -/
def max_f : List Flt → Flt
  | [] => flt 0 1
  | x :: xs => xs.foldl fmax x

def sim_scores (simf : Str → Except String Flt) : List Str → Except String (List Flt)
  | [] => Except.ok []
  | t :: ts => do
    let s ← simf t
    let rest ← sim_scores simf ts
    Except.ok (s :: rest)

def process_entity (simf : Str → Except String Flt) (e : Entity) : Except String Entity := do
  let geo ← sim_scores simf (geo_templates.map (fun t => t e.text))
  let non_geo ← sim_scores simf (non_geo_templates.map (fun t => t e.text))
  if flt_lt (max_f non_geo) (max_f geo) then
    Except.ok { e with semantic_context := str "geographic",
                       confidence := fmin (flt 1 1) (fadd e.confidence (flt 1 5)) }
  else
    Except.ok { e with semantic_context := str "non_geographic",
                       confidence := fmax (flt 1 10) (fsub e.confidence (flt 3 10)) }

def semantic_loop (simf : Str → Except String Flt) : List Entity → List Entity
  | [] => []
  | e :: rest =>
    match process_entity simf e with
    | Except.ok e1 => e1 :: semantic_loop simf rest
    | Except.error _ => e :: rest

def semantic_context_analysis (sim : Option (Str → Str → Except String Flt))
    (entities : List Entity) (full_text : Str) : List Entity :=
  match sim with
  | none => entities
  | some f => if entities.isEmpty then entities else semantic_loop (f full_text) entities

/- ------------------------------------------------------------------ -/
/- ml_confidence_scoring.  Rule-based score accumulation, then clamp. -/

def context_keywords : List Str :=
  [str "in", str "at", str "near", str "from",
   str "residents", str "community", str "neighborhood"]

def ml_score (full_text : Str) (e : Entity) : Flt :=
  let s0 := flt 1 2
  let s1 := if flt_lt (flt e.position 1) (fmul (flt full_text.length 1) (flt 3 10)) then
              fadd s0 (flt 1 10)
            else s0
  let s2 := if e.syntactic_role = str "object" then fadd s1 (flt 3 20)
            else if e.syntactic_role = str "subject" then fadd s1 (flt 1 10) else s1
  let s3 := if context_keywords.any (fun w => containsSub w (lower e.context)) then
              fadd s2 (flt 1 5)
            else s2
  let s4 := if e.parent_entities ≠ [] then fadd s3 (flt 1 10) else s3
  let s5 := if e.semantic_context = str "geographic" then fadd s4 (flt 1 5)
            else if e.semantic_context = str "non_geographic" then fsub s4 (flt 3 10) else s4
  s5

/- _extract_ml_features builds the rule-based feature dict and is called
   for every mention before its score is computed, but its result is
   discarded by the caller, so only its exception behaviour is observable:
   its first entry divides entity.position by len(full_text), raising an
   uncaught ZeroDivisionError when the document is empty; every other entry
   is total.  The model returns that division. -/
def extract_ml_features (e : Entity) (full_text : Str) : Except String Flt :=
  if full_text.length = 0 then Except.error "ZeroDivisionError"
  else Except.ok (fdiv (flt e.position 1) (flt full_text.length 1))

def ml_loop (full_text : Str) : List Entity → Except String (List Entity)
  | [] => Except.ok []
  | e :: rest => do
    let _ ← extract_ml_features e full_text
    let rest1 ← ml_loop full_text rest
    Except.ok ({ e with
      confidence := fmax (flt 0 1) (fmin (flt 1 1) (ml_score full_text e)) } :: rest1)

def ml_confidence_scoring (ml_present : Bool) (entities : List Entity)
    (full_text : Str) : Except String (List Entity) :=
  if !ml_present || entities.isEmpty then Except.ok entities
  else ml_loop full_text entities

/- ------------------------------------------------------------------ -/
/- hierarchical_resolution.  The Python loop mutates each entity in place,
   so later iterations see the already-updated earlier entities; this is a
   fold over the indices that rewrites the list entry by entry. -/

def hier_step (g : GeoGraph) (cur : List Entity) (i : Nat) : List Entity :=
  match cur.get? i with
  | none => cur
  | some e =>
    let others := (cur.filter (fun x => !entity_eqv x e)).map (·.official_name)
    let e1 := if others.any (fun o => decide (o ∈ e.parent_entities)) then
                { e with confidence := fmin (flt 1 1) (fadd e.confidence (flt 3 20)) }
              else e
    let e2 := { e1 with official_name := resolve_ambiguous_reference g e1.official_name others }
    cur.set i e2

def hierarchical_resolution (g : GeoGraph) (entities : List Entity) : List Entity :=
  (List.range entities.length).foldl (hier_step g) entities

/- ------------------------------------------------------------------ -/
/- classify_text: the four stages, then the confidence filter with
   first-occurrence deduplication by official name, then a stable sort by
   descending confidence (Python's list.sort is stable). -/

def dedup_pass (minConf : Flt) : List Entity → List Str → List Entity
  | [], _ => []
  | e :: rest, seen =>
    if fle minConf e.confidence ∧ e.official_name ∉ seen then
      e :: dedup_pass minConf rest (e.official_name :: seen)
    else dedup_pass minConf rest seen

def insert_desc (e : Entity) : List Entity → List Entity
  | [] => [e]
  | f :: fs => if fle f.confidence e.confidence then e :: f :: fs else f :: insert_desc e fs

def sort_desc (es : List Entity) : List Entity := es.foldr insert_desc []

/- The list produced by the four pipeline stages, before filtering. -/
def staged_entities (g : GeoGraph) (caps : Capabilities) (text : Str) :
    Except String (List Entity) := do
  let ents ← extract_named_entities g caps.recognizer text
  let scored ← ml_confidence_scoring caps.ml_present
    (semantic_context_analysis caps.sim ents text) text
  Except.ok (hierarchical_resolution g scored)

def classify_text (g : GeoGraph) (caps : Capabilities) (text : Str) (minConf : Flt) :
    Except String (List Str × List (Str × Flt)) := do
  let ents ← extract_named_entities g caps.recognizer text
  if ents.isEmpty then Except.ok ([], [])
  else do
    let scored ← ml_confidence_scoring caps.ml_present
      (semantic_context_analysis caps.sim ents text) text
    let staged := hierarchical_resolution g scored
    let sorted := sort_desc (dedup_pass minConf staged [])
    Except.ok (sorted.map (·.official_name),
               sorted.map (fun e => (e.official_name, e.confidence)))

/- ------------------------------------------------------------------ -/
/- Concrete fixtures used by the witnesses and counterexamples. -/

/- A graph holding the single city Oakland. -/
def g_oak : GeoGraph := add_place emptyGraph (str "Oakland") (str "city") none none none

/- Raw recognizer entities: the same surface form late and early in the
   document, both with a dependency label outside the special cases. -/
def raw_late : RawEnt :=
  { text := str "Oakland", label := str "GPE", start_char := 9, end_char := 9,
    dep := str "xcomp" }

def raw_early : RawEnt :=
  { text := str "Oakland", label := str "GPE", start_char := 0, end_char := 0,
    dep := str "xcomp" }

def caps_two_mentions : Capabilities :=
  { recognizer := some (Except.ok [raw_late, raw_early]), sim := none, ml_present := true }

def text_qq : Str := str "qqqqqqqqqq"

/- A child added with a parent that was never registered. -/
def g_orphan : GeoGraph :=
  add_place emptyGraph (str "B") (str "city") (some (str "A")) none none

/- A state, a county inside it, and a city inside the county. -/
def g_scx : GeoGraph :=
  add_place (add_place (add_place emptyGraph
    (str "S") (str "state") none none none)
    (str "C") (str "county") (some (str "S")) none none)
    (str "X") (str "city") (some (str "C")) none none

def ment_x : Entity :=
  { text := str "X", official_name := str "X", entity_type := str "city",
    confidence := flt 1 2, position := 0, context := [],
    syntactic_role := str "unknown", semantic_context := str "unknown",
    parent_entities := get_parents g_scx (str "X"), coordinates := none }

def ment_s : Entity :=
  { text := str "S", official_name := str "S", entity_type := str "state",
    confidence := flt 1 2, position := 5, context := [],
    syntactic_role := str "unknown", semantic_context := str "unknown",
    parent_entities := get_parents g_scx (str "S"), coordinates := none }

/- ------------------------------------------------------------------ -/
/- Claim theorems. -/

/-- Claim C9: the geographic-plausibility filter is the ordered three-step
decision: a matching organizational/sports/institutional cue rejects the
mention and takes precedence over any geographic cue; otherwise a matching
geographic cue accepts it; and if neither rule set matches, the mention is
accepted by default. -/
theorem c9_plausibility_filter (text role full_text : Str) :
    (has_non_geo_cue text full_text = true →
      is_geographic_entity text role full_text = false) ∧
    (has_non_geo_cue text full_text = false → has_geo_cue text full_text = true →
      is_geographic_entity text role full_text = true) ∧
    (has_non_geo_cue text full_text = false → has_geo_cue text full_text = false →
      is_geographic_entity text role full_text = true) := by
  unfold is_geographic_entity
  refine ⟨fun h => ?_, fun h1 h2 => ?_, fun h1 h2 => ?_⟩ <;> simp [*]

/-- Witness for C9: a surface form rejected by the institutional cue, at a
concrete input where the cue fires. -/
theorem c9_witness :
    is_geographic_entity (str "Oakland") (str "xcomp")
      (str "University of Oakland students") = false :=
  (c9_plausibility_filter (str "Oakland") (str "xcomp")
    (str "University of Oakland students")).1 (by decide)

/-- Counterexample for C3: adding place B with never-registered parent A is
not a no-op and raises no error: it silently creates an untyped node A (no
type attribute, no entry in the place-to-type map) and attaches the
containment edge A→B. -/
theorem c3_counterexample :
    g_orphan.nodes = [(str "B", ⟨some (str "city"), [], none⟩),
                      (str "A", empty_attrs)] ∧
    g_orphan.edges = [(str "A", str "B")] ∧
    assoc_get g_orphan.place_to_type (str "A") = none ∧
    node_data g_orphan (str "A") = some empty_attrs := by
  decide

/- Every element of an upserted node list either has the upserted key or is
an original element. -/
theorem mem_upsert_node {ns : List (Str × PlaceData)} {name : Str} {d : PlaceData}
    {x : Str × PlaceData} (hx : x ∈ upsert_node ns name d) : x.1 = name ∨ x ∈ ns := by
  unfold upsert_node at hx
  split at hx
  · rcases List.mem_map.mp hx with ⟨y, hy, hxy⟩
    by_cases hyn : y.1 = name
    · left; simp only [if_pos hyn] at hxy; rw [← hxy]
    · right; simp only [if_neg hyn] at hxy; exact hxy ▸ hy
  · rcases List.mem_append.mp hx with hy | hy
    · right; exact hy
    · left; rcases List.mem_singleton.mp hy with rfl; rfl

/- The upserted key is present afterwards. -/
theorem upsert_node_has_key (ns : List (Str × PlaceData)) (name : Str) (d : PlaceData) :
    (upsert_node ns name d).any (fun pd => decide (pd.1 = name)) = true := by
  unfold upsert_node
  split
  case _ h =>
    rcases List.any_eq_true.mp h with ⟨y, hy, hp⟩
    refine List.any_eq_true.mpr ⟨(name, d), List.mem_map.mpr ⟨y, hy, ?_⟩, by simp⟩
    simp [of_decide_eq_true hp]
  case _ =>
    exact List.any_eq_true.mpr ⟨(name, d), List.mem_append.mpr (Or.inr (by simp)), by simp⟩

/- Lookup after rewriting the entries with another key is unchanged. -/
theorem assoc_find_map_ne (k v q : Str) (hq : q ≠ k) : ∀ (l : List (Str × Str)),
    Option.map (fun x => x.2) ((l.map (fun kv => if kv.1 = k then (k, v) else kv)).find?
      (fun kv => decide (kv.1 = q)))
    = Option.map (fun x => x.2) (l.find? (fun kv => decide (kv.1 = q)))
  | [] => by simp
  | x :: xs => by
    by_cases hxk : x.1 = k
    · have hxq : ¬ x.1 = q := fun hc => hq (hc ▸ hxk)
      simp only [List.map_cons, if_pos hxk]
      rw [List.find?_cons_of_neg _ (by simp [Ne.symm hq]),
          List.find?_cons_of_neg _ (by simp [hxq])]
      exact assoc_find_map_ne k v q hq xs
    · by_cases hxq : x.1 = q
      · simp only [List.map_cons, if_neg hxk]
        rw [List.find?_cons_of_pos _ (by simp [hxq]),
            List.find?_cons_of_pos _ (by simp [hxq])]
      · simp only [List.map_cons, if_neg hxk]
        rw [List.find?_cons_of_neg _ (by simp [hxq]),
            List.find?_cons_of_neg _ (by simp [hxq])]
        exact assoc_find_map_ne k v q hq xs

/- assoc_set leaves lookups of other keys unchanged. -/
theorem assoc_get_set_ne (l : List (Str × Str)) (k v q : Str) (hq : q ≠ k) :
    assoc_get (assoc_set l k v) q = assoc_get l q := by
  unfold assoc_get assoc_set
  split
  · exact assoc_find_map_ne k v q hq l
  · rw [List.find?_append]
    have h0 : [(k, v)].find? (fun kv => decide (kv.1 = q)) = none := by
      simp [Ne.symm hq]
    rw [h0]
    cases (l.find? fun kv => decide (kv.1 = q)) <;> rfl

/-- Claim C3 (amended): calling addPlace with a parent name that has not
been registered does not fail: the graph library silently creates the
missing parent as an untyped node (empty attribute dict, no entry in the
place-to-type map) and attaches the containment edge from it to the child. -/
theorem c3_orphan_parent_created (g : GeoGraph) (place ptype p : Str)
    (aliases : Option (List Str)) (coords : Option (Flt × Flt))
    (hnp : has_node g p = false) (hne : p ≠ place) :
    has_node (add_place g place ptype (some p) aliases coords) p = true ∧
    node_data (add_place g place ptype (some p) aliases coords) p
      = some empty_attrs ∧
    (p, place) ∈ (add_place g place ptype (some p) aliases coords).edges ∧
    assoc_get (add_place g place ptype (some p) aliases coords).place_to_type p
      = assoc_get g.place_to_type p := by
  have hnp' : g.nodes.any (fun pd => decide (pd.1 = p)) = false := by
    unfold has_node at hnp
    exact hnp
  have hmem : ∀ x ∈ g.nodes, ¬ x.1 = p := by
    intro x hx
    simpa using List.any_eq_false.mp hnp' x hx
  have hup : ∀ x ∈ upsert_node g.nodes place ⟨some ptype, aliases.getD [], coords⟩,
      ¬ x.1 = p := by
    intro x hx
    rcases mem_upsert_node hx with h | h
    · rw [h]; exact fun hc => hne hc.symm
    · exact hmem x h
  have hup_any : (upsert_node g.nodes place
      ⟨some ptype, aliases.getD [], coords⟩).any (fun pd => decide (pd.1 = p)) = false := by
    rw [List.any_eq_false]
    intro x hx
    simpa using hup x hx
  have hens1 : ensure_node (upsert_node g.nodes place ⟨some ptype, aliases.getD [], coords⟩) p
      = upsert_node g.nodes place ⟨some ptype, aliases.getD [], coords⟩
        ++ [(p, empty_attrs)] := by
    unfold ensure_node
    rw [hup_any]
    simp
  have hens2 : ensure_node (upsert_node g.nodes place ⟨some ptype, aliases.getD [], coords⟩
      ++ [(p, empty_attrs)]) place
      = upsert_node g.nodes place ⟨some ptype, aliases.getD [], coords⟩
        ++ [(p, empty_attrs)] := by
    unfold ensure_node
    have : (upsert_node g.nodes place ⟨some ptype, aliases.getD [], coords⟩
        ++ [(p, empty_attrs)]).any (fun pd => decide (pd.1 = place)) = true := by
      rcases List.any_eq_true.mp (upsert_node_has_key g.nodes place
        ⟨some ptype, aliases.getD [], coords⟩) with ⟨y, hy, hyp⟩
      exact List.any_eq_true.mpr ⟨y, List.mem_append.mpr (Or.inl hy), hyp⟩
    rw [this]
    simp
  have hnodes : (add_place g place ptype (some p) aliases coords).nodes
      = upsert_node g.nodes place ⟨some ptype, aliases.getD [], coords⟩
        ++ [(p, empty_attrs)] := by
    show (add_edge _ p place).nodes = _
    unfold add_edge
    simp only [hens1, hens2]
  refine ⟨?_, ?_, ?_, ?_⟩
  · unfold has_node
    rw [hnodes]
    exact List.any_eq_true.mpr ⟨(p, empty_attrs),
      List.mem_append.mpr (Or.inr (by simp)), by simp⟩
  · unfold node_data
    rw [hnodes, List.find?_append]
    have hfront : (upsert_node g.nodes place ⟨some ptype, aliases.getD [], coords⟩).find?
        (fun pd => decide (pd.1 = p)) = none := by
      rw [List.find?_eq_none]
      intro x hx
      simpa using hup x hx
    rw [hfront]
    simp
  · show (p, place) ∈ (add_edge _ p place).edges
    unfold add_edge
    simp only []
    split
    case _ h =>
      rcases List.any_eq_true.mp h with ⟨y, hy, hyp⟩
      exact (of_decide_eq_true hyp) ▸ hy
    case _ =>
      exact List.mem_append.mpr (Or.inr (by simp))
  · show assoc_get (add_edge _ p place).place_to_type p = _
    unfold add_edge
    exact assoc_get_set_ne g.place_to_type place ptype p hne

/- ------------------------------------------------------------------ -/
/- Analysis of hierarchical_resolution. -/

/- Dataclass equality is reflexive. -/
theorem entity_eqv_refl (e : Entity) : entity_eqv e e = true := by
  simp [entity_eqv, feq]

theorem entity_eqv_false_of_name_ne {x y : Entity}
    (h : ¬ x.official_name = y.official_name) : entity_eqv x y = false := by
  simp [entity_eqv, h]

/- The confidence bonus applied when a co-occurring mention is a direct
parent. -/
def hier_bump (e : Entity) : Entity :=
  { e with confidence := fmin (flt 1 1) (fadd e.confidence (flt 3 20)) }

/- The entity the resolver is expected to produce at index i, in terms of
the original mention list. -/
def hier_expected (es : List Entity) (i : Nat) (e : Entity) : Entity :=
  if (es.eraseIdx i).any (fun x => decide (x.official_name ∈ e.parent_entities)) then
    hier_bump e
  else e

theorem hier_expected_name (es : List Entity) (i : Nat) (e : Entity) :
    (hier_expected es i e).official_name = e.official_name := by
  unfold hier_expected hier_bump
  split <;> rfl

/- One pass of the resolver loop, described against the original list:
when official names are pairwise distinct, the filter of value-distinct
entities is exactly the set of other indices, whose names never change. -/
theorem hier_step_set (g : GeoGraph) (es cur : List Entity)
    (hnd : (es.map (fun x => x.official_name)).Nodup)
    (k : Nat) (e : Entity)
    (hke : es.get? k = some e)
    (hcur_k : cur.get? k = some e)
    (hlen : cur.length = es.length)
    (hnames : ∀ j, (cur.get? j).map (fun x => x.official_name)
      = (es.get? j).map (fun x => x.official_name)) :
    hier_step g cur k = cur.set k (hier_expected es k e) := by
  unfold hier_step
  rw [hcur_k]
  dsimp only
  have hiff : (((cur.filter (fun x => !entity_eqv x e)).map (fun x => x.official_name)).any
      (fun o => decide (o ∈ e.parent_entities)) = true)
      ↔ ((es.eraseIdx k).any (fun x => decide (x.official_name ∈ e.parent_entities)) = true) := by
    constructor
    · intro h
      rcases List.any_eq_true.mp h with ⟨o, ho, hop⟩
      rcases List.mem_map.mp ho with ⟨x, hx, hxo⟩
      rcases List.mem_filter.mp hx with ⟨hxc, hxne⟩
      rcases List.mem_iff_get?.mp hxc with ⟨j, hj⟩
      have hjk : j ≠ k := by
        intro hc
        rw [hc, hcur_k] at hj
        have hxe : x = e := by cases hj; rfl
        rw [hxe, entity_eqv_refl] at hxne
        simp at hxne
      have hjlt : j < es.length := by
        rcases List.get?_eq_some.mp hj with ⟨hlt, _⟩
        omega
      cases hey : es.get? j with
      | none => exact absurd (List.get?_eq_none.mp hey) (by omega)
      | some y =>
        have hyx : x.official_name = y.official_name := by
          have h0 := hnames j
          rw [hj, hey] at h0
          simpa using h0
        refine List.any_eq_true.mpr ⟨y, ?_, ?_⟩
        · exact (List.mem_eraseIdx_iff_get?).mpr ⟨j, hjk, hey⟩
        · rw [← hyx, hxo]
          exact hop
    · intro h
      rcases List.any_eq_true.mp h with ⟨y, hy, hyp⟩
      rcases (List.mem_eraseIdx_iff_get?).mp hy with ⟨j, hjk, hj⟩
      have hjlt : j < es.length := by
        rcases List.get?_eq_some.mp hj with ⟨hlt, _⟩
        omega
      cases hcx : cur.get? j with
      | none =>
        have := List.get?_eq_none.mp hcx
        omega
      | some x =>
        have hxy : x.official_name = y.official_name := by
          have h0 := hnames j
          rw [hj, hcx] at h0
          simpa using h0
        have hne : ¬ x.official_name = e.official_name := by
          intro hc
          have h1 : (es.map (fun x => x.official_name)).get? j = some y.official_name := by
            rw [List.get?_map, hj]; rfl
          have h2 : (es.map (fun x => x.official_name)).get? k = some e.official_name := by
            rw [List.get?_map, hke]; rfl
          have hjm : j < (es.map (fun x => x.official_name)).length := by
            rw [List.length_map]; exact hjlt
          have : j = k := by
            apply List.get?_inj hjm hnd
            rw [h1, h2, ← hxy, hc]
          exact hjk this
        refine List.any_eq_true.mpr ⟨x.official_name, ?_, ?_⟩
        · exact List.mem_map.mpr ⟨x, List.mem_filter.mpr
            ⟨List.get?_mem hcx, by rw [entity_eqv_false_of_name_ne hne]; rfl⟩, rfl⟩
        · rw [hxy]
          exact hyp
  have hcond : ((cur.filter (fun x => !entity_eqv x e)).map (fun x => x.official_name)).any
      (fun o => decide (o ∈ e.parent_entities))
      = (es.eraseIdx k).any (fun x => decide (x.official_name ∈ e.parent_entities)) := by
    by_cases h1 : ((cur.filter (fun x => !entity_eqv x e)).map (fun x => x.official_name)).any
        (fun o => decide (o ∈ e.parent_entities)) = true
    · rw [h1, hiff.mp h1]
    · have h2 : ¬ ((es.eraseIdx k).any
          (fun x => decide (x.official_name ∈ e.parent_entities)) = true) :=
        fun hr => h1 (hiff.mpr hr)
      rw [Bool.not_eq_true] at h1 h2
      rw [h1, h2]
  rw [hcond]
  unfold hier_expected
  split
  case _ hc =>
    simp only [resolve_ambiguous_reference_eq, hier_bump]
  case _ hc =>
    simp only [resolve_ambiguous_reference_eq, hier_bump]

/- The resolver fold, index by index. -/
theorem hier_fold_inv (g : GeoGraph) (es : List Entity)
    (hnd : (es.map (fun x => x.official_name)).Nodup) :
    ∀ k, k ≤ es.length →
      ((List.range k).foldl (hier_step g) es).length = es.length ∧
      (∀ j, j < k → ((List.range k).foldl (hier_step g) es).get? j
          = (es.get? j).map (fun x => hier_expected es j x)) ∧
      (∀ j, k ≤ j → ((List.range k).foldl (hier_step g) es).get? j = es.get? j) := by
  intro k
  induction k with
  | zero =>
    intro _
    refine ⟨rfl, ?_, ?_⟩
    · intro j hj; omega
    · intro j _; rfl
  | succ k ih =>
    intro hk1
    have hk : k < es.length := by omega
    rcases ih (by omega) with ⟨ihlen, ihpre, ihpost⟩
    have hkthis : ((List.range k).foldl (hier_step g) es).get? k = es.get? k :=
      ihpost k (Nat.le_refl k)
    cases hke : es.get? k with
    | none => exact absurd (List.get?_eq_none.mp hke) (by omega)
    | some e =>
      have hcur_k : ((List.range k).foldl (hier_step g) es).get? k = some e := by
        rw [hkthis, hke]
      have hnames : ∀ j, (((List.range k).foldl (hier_step g) es).get? j).map
            (fun x => x.official_name)
          = (es.get? j).map (fun x => x.official_name) := by
        intro j
        by_cases hj : j < k
        · rw [ihpre j hj]
          cases hej : es.get? j with
          | none => rfl
          | some x => simp [hier_expected_name]
        · rw [ihpost j (by omega)]
      have hstep : (List.range (k + 1)).foldl (hier_step g) es
          = ((List.range k).foldl (hier_step g) es).set k (hier_expected es k e) := by
        rw [List.range_succ, List.foldl_append]
        simp only [List.foldl_cons, List.foldl_nil]
        exact hier_step_set g es _ hnd k e hke hcur_k ihlen hnames
      rw [hstep]
      refine ⟨by rw [List.length_set]; exact ihlen, ?_, ?_⟩
      · intro j hj
        by_cases hjk : j = k
        · subst hjk
          rw [List.get?_eq_getElem?, List.getElem?_set_self (by rw [ihlen]; exact hk), hke]
          rfl
        · have hjlt : j < k := by omega
          rw [List.get?_eq_getElem?, List.getElem?_set_ne (by omega), ← List.get?_eq_getElem?]
          exact ihpre j hjlt
      · intro j hj
        rw [List.get?_eq_getElem?, List.getElem?_set_ne (by omega), ← List.get?_eq_getElem?]
        exact ihpost j (by omega)

/-- Claim C2 (amended): in the hierarchical-resolution stage, when the
mentions carry pairwise distinct canonical names, a mention's confidence is
increased by +0.15 (clamped to 1.0) exactly when the canonical name of some
other mention in the list is a DIRECT parent of its canonical place (an
entry of its parent_entities snapshot), not an ancestor at arbitrary
distance; otherwise it is unchanged, and canonical names are unchanged. -/
theorem c2_direct_parent_bonus (g : GeoGraph) (es : List Entity)
    (hnd : (es.map (fun x => x.official_name)).Nodup)
    (i : Nat) (e : Entity) (hie : es.get? i = some e) :
    ((hierarchical_resolution g es).get? i).map (fun x => x.official_name)
      = some e.official_name ∧
    ((∃ j x, j ≠ i ∧ es.get? j = some x ∧ x.official_name ∈ e.parent_entities) →
      ((hierarchical_resolution g es).get? i).map (fun x => x.confidence)
        = some (fmin (flt 1 1) (fadd e.confidence (flt 3 20)))) ∧
    ((¬ ∃ j x, j ≠ i ∧ es.get? j = some x ∧ x.official_name ∈ e.parent_entities) →
      ((hierarchical_resolution g es).get? i).map (fun x => x.confidence)
        = some e.confidence) := by
  have hi : i < es.length := by
    rcases List.get?_eq_some.mp hie with ⟨h, _⟩
    exact h
  rcases hier_fold_inv g es hnd es.length (Nat.le_refl _) with ⟨hlen, hpre, _⟩
  have hval : (hierarchical_resolution g es).get? i = some (hier_expected es i e) := by
    unfold hierarchical_resolution
    rw [hpre i hi, hie]
    rfl
  have hbij : ((es.eraseIdx i).any (fun x => decide (x.official_name ∈ e.parent_entities)) = true)
      ↔ (∃ j x, j ≠ i ∧ es.get? j = some x ∧ x.official_name ∈ e.parent_entities) := by
    rw [List.any_eq_true]
    constructor
    · rintro ⟨x, hx, hxp⟩
      rcases List.mem_eraseIdx_iff_get?.mp hx with ⟨j, hji, hj⟩
      exact ⟨j, x, hji, hj, of_decide_eq_true hxp⟩
    · rintro ⟨j, x, hji, hj, hxp⟩
      exact ⟨x, List.mem_eraseIdx_iff_get?.mpr ⟨j, hji, hj⟩, decide_eq_true hxp⟩
  refine ⟨?_, ?_, ?_⟩
  · rw [hval]
    simp [hier_expected_name]
  · intro hex
    rw [hval]
    unfold hier_expected
    rw [if_pos (hbij.mpr hex)]
    rfl
  · intro hex
    rw [hval]
    unfold hier_expected
    rw [if_neg (fun hc => hex (hbij.mp hc))]
    rfl

def ment_c : Entity :=
  { text := str "C", official_name := str "C", entity_type := str "county",
    confidence := flt 1 2, position := 7, context := [],
    syntactic_role := str "unknown", semantic_context := str "unknown",
    parent_entities := get_parents g_scx (str "C"), coordinates := none }

/-- Counterexample for C2: S is a transitive ancestor (grandparent) of X in
the Place Graph and both are mentioned, yet hierarchical resolution leaves
the X mention's confidence at 0.5 instead of raising it to min(1, 0.65):
only direct parents trigger the bonus. -/
theorem c2_counterexample :
    (str "S") ∈ get_all_ancestors g_scx (str "X") ∧
    (str "S") ∉ ment_x.parent_entities ∧
    (hierarchical_resolution g_scx [ment_x, ment_s]).map
      (fun e => feq e.confidence (flt 1 2)) = [true, true] ∧
    feq (flt 1 2) (fmin (flt 1 1) (fadd (flt 1 2) (flt 3 20))) = false := by
  decide

/-- Witness for C2 (amended): with a direct parent co-mentioned, the bonus
is applied. -/
theorem c2_witness :
    ((hierarchical_resolution g_scx [ment_x, ment_c]).get? 0).map (fun x => x.confidence)
      = some (fmin (flt 1 1) (fadd ment_x.confidence (flt 3 20))) :=
  (c2_direct_parent_bonus g_scx [ment_x, ment_c] (by decide) 0 ment_x rfl).2.1
    ⟨1, ment_c, by decide, rfl, by decide⟩

/-- Witness for C3 (amended): the empty graph, child B, unregistered parent
A. -/
theorem c3_witness :
    has_node g_orphan (str "A") = true ∧
    node_data g_orphan (str "A") = some empty_attrs ∧
    (str "A", str "B") ∈ g_orphan.edges ∧
    assoc_get g_orphan.place_to_type (str "A")
      = assoc_get emptyGraph.place_to_type (str "A") :=
  c3_orphan_parent_created emptyGraph (str "B") (str "city") (str "A") none none
    (by decide) (by decide)

/- ------------------------------------------------------------------ -/
/- The confidence-scoring stage against the spec's additive formula. -/

/- The feature scoring of section 4.5 of the spec, written as one clamped
sum: base 0.5, +0.1 early position, +0.15 object / +0.1 subject, +0.2
context keyword, +0.1 ancestor in the Place Graph, +0.2 geographic /
-0.3 non-geographic. -/
def spec_feature_score (full_text : Str) (e : Entity) : Flt :=
  fmax (flt 0 1) (fmin (flt 1 1)
    (fadd (fadd (fadd (fadd (fadd (flt 1 2)
      (if flt_lt (flt e.position 1) (fmul (flt full_text.length 1) (flt 3 10)) then
        flt 1 10 else flt 0 1))
      (if e.syntactic_role = str "object" then flt 3 20
       else if e.syntactic_role = str "subject" then flt 1 10 else flt 0 1))
      (if context_keywords.any (fun w => containsSub w (lower e.context)) then
        flt 1 5 else flt 0 1))
      (if e.parent_entities ≠ [] then flt 1 10 else flt 0 1))
      (if e.semantic_context = str "geographic" then flt 1 5
       else if e.semantic_context = str "non_geographic" then fsub (flt 0 1) (flt 3 10)
       else flt 0 1)))

/- The sequential accumulation of the source equals the spec's sum, as
float values. -/
theorem ml_score_spec_value (full_text : Str) (e : Entity) :
    feq (fmax (flt 0 1) (fmin (flt 1 1) (ml_score full_text e)))
      (spec_feature_score full_text e) = true := by
  unfold ml_score spec_feature_score
  split_ifs <;> decide

/- The rescoring the stage applies when it completes. -/
def ml_rescored (full_text : Str) (es : List Entity) : List Entity :=
  es.map (fun e =>
    { e with confidence := fmax (flt 0 1) (fmin (flt 1 1) (ml_score full_text e)) })

/- On a non-empty document the feature extraction never raises, so the loop
rescores every mention. -/
theorem ml_loop_of_ne (full_text : Str) (h : ¬ full_text.length = 0) :
    ∀ es : List Entity, ml_loop full_text es = Except.ok (ml_rescored full_text es)
  | [] => rfl
  | e :: rest => by
    unfold ml_loop extract_ml_features
    rw [if_neg h, except_bind_ok, ml_loop_of_ne full_text h rest, except_bind_ok]
    rfl

/- Whenever the loop returns at all, it returns the rescored mentions. -/
theorem ml_loop_ok (full_text : Str) : ∀ (es es' : List Entity),
    ml_loop full_text es = Except.ok es' → es' = ml_rescored full_text es
  | [], es', h => by
    cases h
    rfl
  | e :: rest, es', h => by
    unfold ml_loop at h
    cases hf : extract_ml_features e full_text with
    | error m =>
      rw [hf] at h
      exact absurd h (by simp [Bind.bind, Except.bind])
    | ok v =>
      rw [hf, except_bind_ok] at h
      cases hr : ml_loop full_text rest with
      | error m =>
        rw [hr] at h
        exact absurd h (by simp [Bind.bind, Except.bind])
      | ok rest1 =>
        rw [hr, except_bind_ok] at h
        cases h
        unfold ml_rescored
        rw [List.map_cons]
        have := ml_loop_ok full_text rest rest1 hr
        unfold ml_rescored at this
        rw [this]

theorem ml_scoring_false (es : List Entity) (full_text : Str) :
    ml_confidence_scoring false es full_text = Except.ok es := rfl

theorem ml_scoring_ok_map (es es' : List Entity) (full_text : Str)
    (h : ml_confidence_scoring true es full_text = Except.ok es') :
    es' = ml_rescored full_text es := by
  unfold ml_confidence_scoring at h
  split at h
  case _ hcond =>
    cases h
    have hes : es = [] := by simpa using hcond
    rw [hes]
    rfl
  case _ =>
    exact ml_loop_ok full_text es es' h

theorem ml_scoring_of_ne (es : List Entity) (full_text : Str)
    (h : ¬ full_text.length = 0) :
    ml_confidence_scoring true es full_text
      = Except.ok (ml_rescored full_text es) := by
  unfold ml_confidence_scoring
  split
  case _ hcond =>
    have hes : es = [] := by simpa using hcond
    rw [hes]
    rfl
  case _ =>
    exact ml_loop_of_ne full_text h es

/-- Claim C4 (amended): when the sklearn classifier object is present, the
confidence-scoring stage overwrites every mention's confidence with the
clamp to [0,1] of the purely additive feature sum (base 0.5, +0.1 early
position, +0.15 object / +0.1 subject, +0.2 context keyword, +0.1 when the
mention has a parent in the Place Graph, +0.2 geographic / -0.3
non-geographic), regardless of the confidence previously assigned — this is
what the stage returns whenever it returns, and it always returns on a
non-empty document (on an empty document with mentions present the feature
extraction raises instead); when the classifier capability is absent, the
stage passes every mention through unchanged. -/
theorem c4_feature_scoring (full_text : Str) (es : List Entity) :
    ml_confidence_scoring false es full_text = Except.ok es ∧
    (∀ es', ml_confidence_scoring true es full_text = Except.ok es' →
      es' = es.map (fun e =>
        { e with confidence := fmax (flt 0 1) (fmin (flt 1 1) (ml_score full_text e)) })) ∧
    (¬ full_text.length = 0 →
      ml_confidence_scoring true es full_text = Except.ok (es.map (fun e =>
        { e with confidence := fmax (flt 0 1) (fmin (flt 1 1) (ml_score full_text e)) }))) ∧
    ∀ e ∈ es, feq (fmax (flt 0 1) (fmin (flt 1 1) (ml_score full_text e)))
      (spec_feature_score full_text e) = true := by
  refine ⟨rfl, ?_, ?_, ?_⟩
  · intro es' h
    exact ml_scoring_ok_map es es' full_text h
  · intro h
    exact ml_scoring_of_ne es full_text h
  · intro e _
    exact ml_score_spec_value full_text e

def ent_c4 : Entity :=
  { text := str "Oakland", official_name := str "Oakland",
    entity_type := str "city", confidence := flt 4 5, position := 5,
    context := str "zzz", syntactic_role := str "xcomp",
    semantic_context := str "unknown", parent_entities := [], coordinates := none }

/-- Counterexample for C4: with the classifier capability absent the
scoring stage does not overwrite: a mention entering with confidence 0.8
leaves with 0.8, although the additive feature formula evaluates to 0.5. -/
theorem c4_counterexample :
    (ml_confidence_scoring false [ent_c4] text_qq).map
      (fun l => l.map (fun e => e.confidence)) = Except.ok [flt 4 5] ∧
    feq (spec_feature_score text_qq ent_c4) (flt 1 2) = true ∧
    feq (flt 4 5) (flt 1 2) = false := by
  decide

/- ------------------------------------------------------------------ -/
/- The name resolver. -/

/-- Claim C7: resolve returns the first hit in the fixed order exact
canonical name, registered alias, fuzzy match; the fuzzy test accepts
exactly when both lowercased strings are non-empty and one is a substring
of the other or the character-set Jaccard overlap is at least the 0.9
threshold; with no hit it returns none (the fuzzy pass's optional first
hit). -/
theorem c7_resolver_order (g : GeoGraph) (t : Str) :
    (∀ t1 t2 : Str, fuzzy_match t1 t2 (flt 9 10) = true ↔
      (t1 ≠ [] ∧ t2 ≠ [] ∧ (containsSub t1 t2 = true ∨ containsSub t2 t1 = true ∨
        fle (flt 9 10)
          (fdiv (flt (char_set_inter t1 t2) 1) (flt (char_set_union t1 t2) 1)) = true))) ∧
    (∀ pd, g.nodes.find? (fun pd => decide (lower pd.1 = lower t)) = some pd →
      resolve_to_official_name g t = some pd.1) ∧
    (g.nodes.find? (fun pd => decide (lower pd.1 = lower t)) = none →
      ∀ pd, g.nodes.find? (fun pd => pd.2.aliases.any (fun a => decide (lower a = lower t)))
          = some pd →
        resolve_to_official_name g t = some pd.1) ∧
    (g.nodes.find? (fun pd => decide (lower pd.1 = lower t)) = none →
      g.nodes.find? (fun pd => pd.2.aliases.any (fun a => decide (lower a = lower t))) = none →
      resolve_to_official_name g t
        = (g.nodes.find? (fun pd => fuzzy_match (lower t) (lower pd.1) (flt 9 10))).map
            (fun pd => pd.1)) := by
  refine ⟨?_, ?_, ?_, ?_⟩
  · intro t1 t2
    unfold fuzzy_match
    by_cases h1 : t1.length = 0 ∨ t2.length = 0
    · rw [if_pos h1]
      constructor
      · intro hc
        exact absurd hc (by simp)
      · rintro ⟨hn1, hn2, _⟩
        rcases h1 with h | h
        · exact absurd (List.length_eq_zero.mp h) hn1
        · exact absurd (List.length_eq_zero.mp h) hn2
    · rw [if_neg h1]
      have hn1 : t1 ≠ [] := fun hc => h1 (Or.inl (by rw [hc]; rfl))
      have hn2 : t2 ≠ [] := fun hc => h1 (Or.inr (by rw [hc]; rfl))
      by_cases h2 : (containsSub t1 t2 || containsSub t2 t1) = true
      · rw [if_pos h2]
        rcases Bool.or_eq_true_iff.mp h2 with hcc | hcc
        · exact ⟨fun _ => ⟨hn1, hn2, Or.inl hcc⟩, fun _ => rfl⟩
        · exact ⟨fun _ => ⟨hn1, hn2, Or.inr (Or.inl hcc)⟩, fun _ => rfl⟩
      · rw [if_neg h2]
        rw [Bool.or_eq_true_iff] at h2
        push_neg at h2
        have hcc : containsSub t1 t2 = false ∧ containsSub t2 t1 = false := by
          constructor
          · exact Bool.not_eq_true _ ▸ h2.1
          · exact Bool.not_eq_true _ ▸ h2.2
        constructor
        · intro hl
          exact ⟨hn1, hn2, Or.inr (Or.inr hl)⟩
        · rintro ⟨_, _, hc | hc | hc⟩
          · rw [hcc.1] at hc
            exact absurd hc (by simp)
          · rw [hcc.2] at hc
            exact absurd hc (by simp)
          · exact hc
  · intro pd h
    simp only [resolve_to_official_name]
    rw [h]
  · intro hdir pd h
    simp only [resolve_to_official_name]
    rw [hdir, h]
  · intro hdir halias
    simp only [resolve_to_official_name]
    rw [hdir, halias]

/-- Witness for C7: the fuzzy rule accepts a proper substring pair, applied
at a concrete input. -/
theorem c7_witness : fuzzy_match (str "oak") (str "oakland") (flt 9 10) = true :=
  ((c7_resolver_order emptyGraph []).1 (str "oak") (str "oakland")).mpr
    ⟨by decide, by decide, Or.inl (by decide)⟩

/- ------------------------------------------------------------------ -/
/- Alias round-trip. -/

/- A graph where an alias of one place coincides with another place's
canonical name. -/
def g_mex : GeoGraph :=
  add_place (add_place emptyGraph (str "Mexico") (str "city") none none none)
    (str "Mexicotown") (str "neighborhood") none (some [str "mexico"]) none

/-- Counterexample for C6: the alias "mexico" is registered for exactly one
canonical place (Mexicotown), yet resolving it returns Mexico, because the
exact-canonical-name pass runs before the alias pass. -/
theorem c6_counterexample :
    (g_mex.nodes.filter (fun pd => pd.2.aliases.any (fun a =>
        decide (lower a = str "mexico")))).map (fun pd => pd.1) = [str "Mexicotown"] ∧
    resolve_to_official_name g_mex (str "mexico") = some (str "Mexico") ∧
    str "Mexico" ≠ str "Mexicotown" := by
  decide

/-- Claim C6 (amended): for every place P with registered alias A, if the
alias is registered (case-insensitively) for no other place and moreover A
does not case-insensitively equal any canonical name in the graph, then
resolving A yields P's canonical name. -/
theorem c6_alias_roundtrip (g : GeoGraph) (P A : Str) (dP : PlaceData)
    (hmem : (P, dP) ∈ g.nodes) (hA : A ∈ dP.aliases)
    (hname : ∀ q ∈ g.nodes, ¬ lower q.1 = lower A)
    (huniq : ∀ q ∈ g.nodes, (∃ a ∈ q.2.aliases, lower a = lower A) → q.1 = P) :
    resolve_to_official_name g A = some P := by
  have hdir : g.nodes.find? (fun pd => decide (lower pd.1 = lower A)) = none := by
    rw [List.find?_eq_none]
    intro x hx
    simpa using hname x hx
  have halias : ∃ pd, g.nodes.find?
      (fun pd => pd.2.aliases.any (fun a => decide (lower a = lower A))) = some pd := by
    have hex : ∃ x, x ∈ g.nodes ∧
        (x.2.aliases.any (fun a => decide (lower a = lower A))) = true :=
      ⟨(P, dP), hmem, List.any_eq_true.mpr ⟨A, hA, by simp⟩⟩
    exact Option.isSome_iff_exists.mp (List.find?_isSome.mpr hex)
  rcases halias with ⟨pd, hpd⟩
  have hpdP : pd.1 = P := by
    apply huniq pd (List.mem_of_find?_eq_some hpd)
    have hsat := List.find?_some hpd
    rcases List.any_eq_true.mp hsat with ⟨a, ha, hha⟩
    exact ⟨a, ha, of_decide_eq_true hha⟩
  simp only [resolve_to_official_name]
  rw [hdir, hpd]
  show some pd.1 = some P
  rw [hpdP]

/- A graph with a city and a neighborhood carrying one alias. -/
def g_pgh : GeoGraph :=
  add_place (add_place emptyGraph (str "Pittsburgh") (str "city") none none none)
    (str "Shadyside") (str "neighborhood") (some (str "Pittsburgh"))
    (some [str "sside"]) none

/-- Witness for C6 (amended): a uniquely registered alias that collides
with no canonical name resolves to its owner. -/
theorem c6_witness :
    resolve_to_official_name g_pgh (str "sside") = some (str "Shadyside") :=
  c6_alias_roundtrip g_pgh (str "Shadyside") (str "sside")
    ⟨some (str "neighborhood"), [str "sside"], none⟩
    (by decide) (by decide) (by decide) (by decide)

/- ------------------------------------------------------------------ -/
/- Fallback extraction. -/

/- Python str.find returns the first occurrence. -/
theorem findSub_spec (needle : Str) : ∀ (hay : Str), containsSub needle hay = true →
    needle.isPrefixOf (hay.drop (findSub needle hay)) = true ∧
    ∀ j, j < findSub needle hay → ¬ needle.isPrefixOf (hay.drop j) = true
  | [], h => by
    unfold containsSub at h
    unfold findSub
    exact ⟨by simpa using h, fun j hj => absurd hj (by omega)⟩
  | c :: rest, h => by
    unfold findSub
    by_cases hp : needle.isPrefixOf (c :: rest) = true
    · rw [if_pos hp]
      exact ⟨by simpa using hp, fun j hj => absurd hj (by omega)⟩
    · rw [if_neg hp]
      have hc : containsSub needle rest = true := by
        unfold containsSub at h
        rcases Bool.or_eq_true_iff.mp h with h1 | h1
        · exact absurd h1 hp
        · exact h1
      rcases findSub_spec needle rest hc with ⟨ha, hb⟩
      constructor
      · simpa [List.drop_succ_cons] using ha
      · intro j hj
        cases j with
        | zero => simpa using hp
        | succ j0 =>
          have := hb j0 (by omega)
          simpa [List.drop_succ_cons] using this

/- The extraction fold appends one entity per matching node. -/
theorem basic_extraction_fold (g : GeoGraph) (text : Str) :
    ∀ (ns : List (Str × PlaceData)) (acc : List Entity),
    ns.foldl (fun acc pd =>
      if containsSub (lower pd.1) (lower text) then acc ++ [mk_basic_entity g text pd.1]
      else acc) acc
    = acc ++ (ns.filter (fun pd => containsSub (lower pd.1) (lower text))).map
        (fun pd => mk_basic_entity g text pd.1)
  | [], acc => by simp
  | pd :: rest, acc => by
    simp only [List.foldl_cons]
    by_cases h : containsSub (lower pd.1) (lower text) = true
    · rw [if_pos h, basic_extraction_fold g text rest _]
      simp only [List.filter_cons]
      rw [if_pos h, List.map_cons, List.append_assoc]
      rfl
    · rw [if_neg h, basic_extraction_fold g text rest _]
      simp only [List.filter_cons]
      rw [if_neg h]

theorem basic_extraction_eq (g : GeoGraph) (text : Str) :
    basic_entity_extraction g text
      = (g.nodes.filter (fun pd => containsSub (lower pd.1) (lower text))).map
          (fun pd => mk_basic_entity g text pd.1) := by
  unfold basic_entity_extraction
  rw [basic_extraction_fold g text g.nodes []]
  rfl

/-- Claim C10: in fallback extraction, every known place whose lowercased
name occurs in the lowercased text contributes exactly one mention —
positioned at the first occurrence, confidence 0.6, syntactic role and
semantic label unknown — and two mentions can never share a canonical name
(the node names of a graph are pairwise distinct). -/
theorem c10_fallback_extraction (g : GeoGraph) (text : Str)
    (hnd : (g.nodes.map (fun pd => pd.1)).Nodup) :
    (∀ pd ∈ g.nodes, containsSub (lower pd.1) (lower text) = true →
      mk_basic_entity g text pd.1 ∈ basic_entity_extraction g text) ∧
    (∀ e ∈ basic_entity_extraction g text,
      ∃ pd, pd ∈ g.nodes ∧ containsSub (lower pd.1) (lower text) = true ∧
        e = mk_basic_entity g text pd.1) ∧
    ((basic_entity_extraction g text).map (fun e => e.official_name)).Nodup ∧
    (∀ e ∈ basic_entity_extraction g text,
      e.text = e.official_name ∧
      e.confidence = flt 3 5 ∧ e.syntactic_role = str "unknown" ∧
      e.semantic_context = str "unknown" ∧
      (lower e.official_name).isPrefixOf ((lower text).drop e.position) = true ∧
      ∀ j, j < e.position → ¬ (lower e.official_name).isPrefixOf ((lower text).drop j) = true) := by
  refine ⟨?_, ?_, ?_, ?_⟩
  · intro pd hpd hc
    rw [basic_extraction_eq]
    exact List.mem_map.mpr ⟨pd, List.mem_filter.mpr ⟨hpd, hc⟩, rfl⟩
  · intro e he
    rw [basic_extraction_eq] at he
    rcases List.mem_map.mp he with ⟨pd, hpd, hepd⟩
    rcases List.mem_filter.mp hpd with ⟨hmem, hc⟩
    exact ⟨pd, hmem, hc, hepd.symm⟩
  · rw [basic_extraction_eq, List.map_map]
    have hfun : ((fun e => e.official_name) ∘ (fun pd => mk_basic_entity g text pd.1))
        = (fun (pd : Str × PlaceData) => pd.1) := by
      funext pd
      rfl
    rw [hfun]
    exact hnd.sublist (List.Sublist.map _ (List.filter_sublist _))
  · intro e he
    rw [basic_extraction_eq] at he
    rcases List.mem_map.mp he with ⟨pd, hpd, hepd⟩
    rcases List.mem_filter.mp hpd with ⟨_, hc⟩
    subst hepd
    rcases findSub_spec (lower pd.1) (lower text) hc with ⟨hpre, hmin⟩
    exact ⟨rfl, rfl, rfl, rfl, hpre, hmin⟩

/-- Witness for C10: on a one-place graph and a text containing the place
name twice, the fallback mention for Oakland is produced. -/
theorem c10_witness :
    mk_basic_entity g_oak (str "go Oakland go oakland") (str "Oakland")
      ∈ basic_entity_extraction g_oak (str "go Oakland go oakland") :=
  (c10_fallback_extraction g_oak (str "go Oakland go oakland") (by decide)).1
    (str "Oakland", ⟨some (str "city"), [], none⟩) (by decide) (by decide)

/- ------------------------------------------------------------------ -/
/- The orchestrator's error behaviour. -/

def is_ok {α : Type _} : Except String α → Bool
  | Except.ok _ => true
  | Except.error _ => false

/- classify_text when extraction yields no candidates. -/
theorem classify_text_empty (g : GeoGraph) (caps : Capabilities) (text : Str)
    (minConf : Flt)
    (hes : extract_named_entities g caps.recognizer text = Except.ok []) :
    classify_text g caps text minConf = Except.ok ([], []) := by
  unfold classify_text
  rw [hes, except_bind_ok]
  rfl

/- classify_text after a successful extraction and a successful scoring
stage. -/
theorem classify_text_ok (g : GeoGraph) (caps : Capabilities) (text : Str) (minConf : Flt)
    (es scored : List Entity)
    (hes : extract_named_entities g caps.recognizer text = Except.ok es)
    (hne : es.isEmpty = false)
    (hml : ml_confidence_scoring caps.ml_present
      (semantic_context_analysis caps.sim es text) text = Except.ok scored) :
    classify_text g caps text minConf = Except.ok
      ((sort_desc (dedup_pass minConf (hierarchical_resolution g scored) [])).map
          (fun e => e.official_name),
        (sort_desc (dedup_pass minConf (hierarchical_resolution g scored) [])).map
          (fun e => (e.official_name, e.confidence))) := by
  unfold classify_text
  rw [hes, except_bind_ok]
  simp only [hne, Bool.false_eq_true, if_false]
  rw [hml, except_bind_ok]

/- classify_text propagates a scoring-stage error. -/
theorem classify_text_ml_error (g : GeoGraph) (caps : Capabilities) (text : Str)
    (minConf : Flt) (es : List Entity) (msg : String)
    (hes : extract_named_entities g caps.recognizer text = Except.ok es)
    (hne : es.isEmpty = false)
    (hml : ml_confidence_scoring caps.ml_present
      (semantic_context_analysis caps.sim es text) text = Except.error msg) :
    classify_text g caps text minConf = Except.error msg := by
  unfold classify_text
  rw [hes, except_bind_ok]
  simp only [hne, Bool.false_eq_true, if_false]
  rw [hml]
  rfl

def caps_fail_rec : Capabilities :=
  { recognizer := some (Except.error "recognizer crashed"), sim := none,
    ml_present := true }

/- A graph holding one place whose canonical name is the empty string, and
a capability set with only the classifier present. -/
def g_empty_name : GeoGraph :=
  add_place emptyGraph (str "") (str "city") none none none

def caps_ml_only : Capabilities :=
  { recognizer := none, sim := none, ml_present := true }

/-- Counterexample for C8: two uncaught exception paths escape classify.
A runtime failure of the recognizer capability is not caught anywhere and
propagates instead of degrading to the fallback scanner; and with the
classifier present, a non-empty mention list on an empty document makes the
scoring stage's feature extraction divide the position by the document
length, raising an uncaught ZeroDivisionError. -/
theorem c8_counterexample :
    classify_text g_oak caps_fail_rec text_qq (flt 2 5)
      = Except.error "recognizer crashed" ∧
    classify_text g_empty_name caps_ml_only [] (flt 2 5)
      = Except.error "ZeroDivisionError" := by
  exact ⟨rfl, rfl⟩

/-- Claim C8 (amended): if the recognizer capability is absent or returns
successfully, and the document is non-empty or the classifier capability is
absent, classify returns normally for every graph, threshold and
embedding-capability behaviour (including failures, which are caught inside
the semantic stage); zero extracted candidates short-circuit to the empty
result.  Two uncaught error paths remain: a runtime failure of the
recognizer itself propagates to the caller, and with the classifier
present, mentions extracted from an empty document make the scoring
stage's feature extraction raise ZeroDivisionError. -/
theorem c8_graceful_degradation (g : GeoGraph) (caps : Capabilities) (text : Str)
    (minConf : Flt) :
    ((caps.recognizer = none ∨ ∃ l, caps.recognizer = some (Except.ok l)) →
      (text ≠ [] ∨ caps.ml_present = false) →
      ∃ r, classify_text g caps text minConf = Except.ok r) ∧
    (extract_named_entities g caps.recognizer text = Except.ok [] →
      classify_text g caps text minConf = Except.ok ([], [])) := by
  constructor
  · intro hrec htext
    have hex : ∃ es, extract_named_entities g caps.recognizer text = Except.ok es := by
      rcases hrec with h | ⟨l, h⟩
      · exact ⟨basic_entity_extraction g text, by unfold extract_named_entities; rw [h]⟩
      · exact ⟨l.foldl (ner_step g text) [], by unfold extract_named_entities; rw [h]; rfl⟩
    rcases hex with ⟨es, hes⟩
    by_cases hemp : es.isEmpty = true
    · have hes0 : es = [] := by simpa using hemp
      exact ⟨([], []), classify_text_empty g caps text minConf (hes0 ▸ hes)⟩
    · have hne : es.isEmpty = false := by
        cases hx : es.isEmpty
        · rfl
        · exact absurd hx hemp
      have hml : ∃ scored, ml_confidence_scoring caps.ml_present
          (semantic_context_analysis caps.sim es text) text = Except.ok scored := by
        cases hmp : caps.ml_present with
        | false => exact ⟨_, ml_scoring_false _ _⟩
        | true =>
          rcases htext with ht | hmf
          · exact ⟨_, ml_scoring_of_ne _ text (fun hc => ht (List.length_eq_zero.mp hc))⟩
          · rw [hmp] at hmf
            exact absurd hmf (by simp)
      rcases hml with ⟨scored, hml⟩
      exact ⟨_, classify_text_ok g caps text minConf es scored hes hne hml⟩
  · intro h
    exact classify_text_empty g caps text minConf h

def caps_sim_fail : Capabilities :=
  { recognizer := none, sim := some (fun _ _ => Except.error "embedding down"),
    ml_present := true }

/-- Witness for C8 (amended): fallback extraction plus a failing embedding
capability on a non-empty document still yield a normal return. -/
theorem c8_witness :
    is_ok (classify_text g_oak caps_sim_fail (str "Oakland here") (flt 2 5)) = true := by
  rcases (c8_graceful_degradation g_oak caps_sim_fail (str "Oakland here") (flt 2 5)).1
    (Or.inl rfl) (Or.inl (by decide)) with ⟨r, hr⟩
  rw [hr]
  rfl

/- ------------------------------------------------------------------ -/
/- The confidence filter, deduplication and sort of classify_text. -/

theorem dedup_pass_mem (minConf : Flt) : ∀ (es : List Entity) (seen : List Str)
    (e : Entity), e ∈ dedup_pass minConf es seen →
    fle minConf e.confidence = true ∧ e.official_name ∉ seen ∧ e ∈ es
  | [], _, e, he => absurd he (List.not_mem_nil e)
  | e0 :: rest, seen, e, he => by
    unfold dedup_pass at he
    split at he
    case _ hcond =>
      rcases List.mem_cons.mp he with rfl | hrec
      · exact ⟨hcond.1, hcond.2, List.mem_cons_self _ _⟩
      · rcases dedup_pass_mem minConf rest (e0.official_name :: seen) e hrec with ⟨h1, h2, h3⟩
        exact ⟨h1, fun hc => h2 (List.mem_cons_of_mem _ hc), List.mem_cons_of_mem _ h3⟩
    case _ hcond =>
      rcases dedup_pass_mem minConf rest seen e he with ⟨h1, h2, h3⟩
      exact ⟨h1, h2, List.mem_cons_of_mem _ h3⟩

/- The first mention, in pipeline order, with the given canonical name
among those meeting the confidence threshold. -/
def first_survivor (minConf : Flt) (es : List Entity) (n : Str) : Option Entity :=
  (es.filter (fun e => fle minConf e.confidence)).find?
    (fun e => decide (e.official_name = n))

theorem dedup_pass_first (minConf : Flt) : ∀ (es : List Entity) (seen : List Str)
    (e : Entity), e ∈ dedup_pass minConf es seen →
    first_survivor minConf es e.official_name = some e
  | [], _, e, he => absurd he (List.not_mem_nil e)
  | e0 :: rest, seen, e, he => by
    unfold dedup_pass at he
    unfold first_survivor
    simp only [List.filter_cons]
    split at he
    case _ hcond =>
      rw [if_pos hcond.1]
      rcases List.mem_cons.mp he with rfl | hrec
      · rw [List.find?_cons_of_pos _ (by simp)]
      · have hnot := (dedup_pass_mem minConf rest (e0.official_name :: seen) e hrec).2.1
        have hne : ¬ e0.official_name = e.official_name :=
          fun hc => hnot (hc ▸ List.mem_cons_self _ _)
        rw [List.find?_cons_of_neg _ (by simpa using hne)]
        exact dedup_pass_first minConf rest (e0.official_name :: seen) e hrec
    case _ hcond =>
      by_cases hf : fle minConf e0.confidence = true
      · have hin : e0.official_name ∈ seen := by
          by_contra hni
          exact hcond ⟨hf, hni⟩
        have hnot := (dedup_pass_mem minConf rest seen e he).2.1
        have hne : ¬ e0.official_name = e.official_name :=
          fun hc => hnot (hc ▸ hin)
        rw [if_pos hf, List.find?_cons_of_neg _ (by simpa using hne)]
        exact dedup_pass_first minConf rest seen e he
      · rw [if_neg hf]
        exact dedup_pass_first minConf rest seen e he

theorem dedup_pass_names_nodup (minConf : Flt) : ∀ (es : List Entity) (seen : List Str),
    ((dedup_pass minConf es seen).map (fun e => e.official_name)).Nodup
  | [], _ => List.nodup_nil
  | e0 :: rest, seen => by
    unfold dedup_pass
    split
    case _ hcond =>
      rw [List.map_cons]
      refine List.nodup_cons.mpr ⟨?_, dedup_pass_names_nodup minConf rest _⟩
      intro hc
      rcases List.mem_map.mp hc with ⟨x, hx, hxn⟩
      have := (dedup_pass_mem minConf rest (e0.official_name :: seen) x hx).2.1
      exact this (hxn ▸ List.mem_cons_self _ _)
    case _ =>
      exact dedup_pass_names_nodup minConf rest seen

theorem insert_desc_perm (e : Entity) : ∀ l, List.Perm (insert_desc e l) (e :: l)
  | [] => List.Perm.refl _
  | f :: fs => by
    unfold insert_desc
    split
    · exact List.Perm.refl _
    · exact List.Perm.trans (List.Perm.cons f (insert_desc_perm e fs))
        (List.Perm.swap e f fs)

theorem sort_desc_perm : ∀ l, List.Perm (sort_desc l) l
  | [] => List.Perm.refl _
  | e :: rest => by
    unfold sort_desc
    simp only [List.foldr_cons]
    exact List.Perm.trans (insert_desc_perm e (sort_desc rest))
      (List.Perm.cons e (sort_desc_perm rest))

/-- Counterexample for C1: two surviving mentions share canonical name
Oakland, with confidences 0.7 (earlier in pipeline order) and 0.8 (later);
classify reports Oakland once but with confidence 0.7, not the highest 0.8,
because deduplication keeps the first pipeline-order occurrence and runs
before the sort. -/
theorem c1_counterexample :
    (staged_entities g_oak caps_two_mentions text_qq).map
      (fun l => l.map (fun e => (e.official_name, feq e.confidence (flt 7 10),
        feq e.confidence (flt 4 5), fle (flt 2 5) e.confidence)))
      = Except.ok [(str "Oakland", true, false, true),
                   (str "Oakland", false, true, true)] ∧
    (classify_text g_oak caps_two_mentions text_qq (flt 2 5)).map
      (fun r => (r.1, r.2.map (fun nc => (nc.1, feq nc.2 (flt 7 10),
        feq nc.2 (flt 4 5)))))
      = Except.ok ([str "Oakland"], [(str "Oakland", true, false)]) ∧
    feq (flt 7 10) (flt 4 5) = false := by
  decide

/-- Claim C1 (amended): each canonical name appears exactly once in the
result, and the confidence reported for it is the confidence of the FIRST
mention with that name, in pipeline order, whose confidence meets the
threshold — deduplication keeps the first surviving occurrence encountered
BEFORE sorting, so the reported confidence need not be the highest among
same-name survivors. -/
theorem c1_dedup_first_survivor (g : GeoGraph) (caps : Capabilities) (text : Str)
    (minConf : Flt) (es : List Entity) (ps : List Str) (scores : List (Str × Flt))
    (hes : staged_entities g caps text = Except.ok es)
    (hcl : classify_text g caps text minConf = Except.ok (ps, scores)) :
    ps.Nodup ∧ ps = scores.map (fun nc => nc.1) ∧
    ∀ n c, (n, c) ∈ scores → ∃ e, first_survivor minConf es n = some e ∧
      e.official_name = n ∧ e.confidence = c := by
  cases hext : extract_named_entities g caps.recognizer text with
  | error msg =>
    unfold staged_entities at hes
    rw [hext] at hes
    exact absurd hes (by simp [Bind.bind, Except.bind])
  | ok l =>
    cases hml : ml_confidence_scoring caps.ml_present
        (semantic_context_analysis caps.sim l text) text with
    | error msg =>
      unfold staged_entities at hes
      rw [hext, except_bind_ok, hml] at hes
      exact absurd hes (by simp [Bind.bind, Except.bind])
    | ok scored =>
      have hes' : es = hierarchical_resolution g scored := by
        unfold staged_entities at hes
        rw [hext, except_bind_ok, hml, except_bind_ok] at hes
        cases hes
        rfl
      by_cases hemp : l.isEmpty = true
      · have hl0 : l = [] := by simpa using hemp
        rw [classify_text_empty g caps text minConf (hl0 ▸ hext)] at hcl
        cases hcl
        refine ⟨List.nodup_nil, rfl, ?_⟩
        intro n c hc
        exact absurd hc (List.not_mem_nil _)
      · have hne : l.isEmpty = false := by
          cases hx : l.isEmpty
          · rfl
          · exact absurd hx hemp
        rw [classify_text_ok g caps text minConf l scored hext hne hml] at hcl
        cases hcl
        rw [← hes']
        have hperm : List.Perm (sort_desc (dedup_pass minConf es []))
            (dedup_pass minConf es []) := by
          exact sort_desc_perm _
        refine ⟨?_, ?_, ?_⟩
        · have hnd := dedup_pass_names_nodup minConf es []
          exact ((hperm.map (fun e => e.official_name)).nodup_iff).mpr hnd
        · rw [List.map_map]
          rfl
        · intro n c hc
          rcases List.mem_map.mp hc with ⟨e, he, hpair⟩
          have hmem : e ∈ dedup_pass minConf es [] := hperm.mem_iff.mp he
          have hfirst := dedup_pass_first minConf es [] e hmem
          have hn : e.official_name = n := congrArg Prod.fst hpair
          have hcconf : e.confidence = c := congrArg Prod.snd hpair
          exact ⟨e, hn ▸ hfirst, hn, hcconf⟩

def es_c1 : List Entity :=
  (staged_entities g_oak caps_two_mentions text_qq).toOption.getD []

/-- Witness for C1 (amended): in the two-mention run the reported Oakland
confidence is the first survivor's (0.7). -/
theorem c1_witness :
    (first_survivor (flt 2 5) es_c1 (str "Oakland")).map (fun e => e.confidence)
      = some (flt 7 10) := by
  rcases (c1_dedup_first_survivor g_oak caps_two_mentions text_qq (flt 2 5) es_c1
      [str "Oakland"] [(str "Oakland", flt 7 10)] rfl (by decide)).2.2
      (str "Oakland") (flt 7 10) (by decide) with ⟨e, hfs, _, hc⟩
  rw [hfs]
  simp [hc]

/- ------------------------------------------------------------------ -/
/- Value-level facts about the fraction arithmetic, used for the
confidence-interval invariant. -/

/- A well-formed fraction whose value lies in the unit interval. -/
def unit_frac (x : Flt) : Prop := 0 < x.den ∧ 0 ≤ x.toRat ∧ x.toRat ≤ 1

theorem fle_true_iff (x y : Flt) (hx : 0 < x.den) (hy : 0 < y.den) :
    fle x y = true ↔ x.toRat ≤ y.toRat := by
  unfold fle Flt.toRat
  rw [decide_eq_true_eq, div_le_div_iff (by exact_mod_cast hx) (by exact_mod_cast hy)]
  constructor
  · intro h
    exact_mod_cast h
  · intro h
    exact_mod_cast h

theorem flt_lt_true_iff (x y : Flt) (hx : 0 < x.den) (hy : 0 < y.den) :
    flt_lt x y = true ↔ x.toRat < y.toRat := by
  unfold flt_lt Flt.toRat
  rw [decide_eq_true_eq, div_lt_div_iff (by exact_mod_cast hx) (by exact_mod_cast hy)]
  constructor
  · intro h
    exact_mod_cast h
  · intro h
    exact_mod_cast h

theorem toRat_fadd (x y : Flt) (hx : 0 < x.den) (hy : 0 < y.den) :
    (fadd x y).toRat = x.toRat + y.toRat := by
  unfold fadd Flt.toRat
  have hx' : (x.den : ℚ) ≠ 0 := by
    have h : (0 : ℚ) < (x.den : ℚ) := by exact_mod_cast hx
    exact h.ne'
  have hy' : (y.den : ℚ) ≠ 0 := by
    have h : (0 : ℚ) < (y.den : ℚ) := by exact_mod_cast hy
    exact h.ne'
  rw [div_add_div _ _ hx' hy']
  push_cast
  ring_nf

theorem toRat_fsub (x y : Flt) (hx : 0 < x.den) (hy : 0 < y.den) :
    (fsub x y).toRat = x.toRat - y.toRat := by
  unfold fsub Flt.toRat
  have hx' : (x.den : ℚ) ≠ 0 := by
    have h : (0 : ℚ) < (x.den : ℚ) := by exact_mod_cast hx
    exact h.ne'
  have hy' : (y.den : ℚ) ≠ 0 := by
    have h : (0 : ℚ) < (y.den : ℚ) := by exact_mod_cast hy
    exact h.ne'
  rw [div_sub_div _ _ hx' hy']
  push_cast
  ring_nf

theorem unit_frac_flt (n d : Int) (hd : 0 < d) (h0 : 0 ≤ n) (h1 : n ≤ d) :
    unit_frac (flt n d) := by
  refine ⟨hd, ?_, ?_⟩
  · unfold Flt.toRat flt
    apply div_nonneg
    · exact_mod_cast h0
    · exact_mod_cast hd.le
  · unfold Flt.toRat flt
    rw [div_le_one (by exact_mod_cast hd)]
    exact_mod_cast h1

/- Adding a nonnegative bonus and clamping at 1 from above stays in the
unit interval. -/
theorem unit_frac_min_one_add (c b : Flt) (hc : unit_frac c) (hb : 0 < b.den)
    (hb0 : 0 ≤ b.toRat) : unit_frac (fmin (flt 1 1) (fadd c b)) := by
  rcases hc with ⟨hcd, hc0, hc1⟩
  have hsum_den : 0 < (fadd c b).den := by
    have : (fadd c b).den = c.den * b.den := rfl
    rw [this]
    exact Int.mul_pos hcd hb
  have hsum : (fadd c b).toRat = c.toRat + b.toRat := toRat_fadd c b hcd hb
  unfold fmin
  by_cases h : fle (flt 1 1) (fadd c b) = true
  · rw [if_pos h]
    exact unit_frac_flt 1 1 (by omega) (by omega) (by omega)
  · rw [if_neg h]
    have hlt : ¬ (flt 1 1).toRat ≤ (fadd c b).toRat := by
      intro hcon
      exact h ((fle_true_iff _ _ (by decide) hsum_den).mpr hcon)
    have h1q : (flt 1 1).toRat = 1 := by norm_num [Flt.toRat, flt]
    refine ⟨hsum_den, ?_, ?_⟩
    · rw [hsum]
      exact add_nonneg hc0 hb0
    · rw [h1q] at hlt
      rw [hsum] at hlt ⊢
      exact le_of_lt (lt_of_not_le hlt)

/- Subtracting the 0.3 penalty and clamping at 0.1 from below stays in the
unit interval. -/
theorem unit_frac_max_tenth_sub (c : Flt) (hc : unit_frac c) :
    unit_frac (fmax (flt 1 10) (fsub c (flt 3 10))) := by
  rcases hc with ⟨hcd, hc0, hc1⟩
  have hsub_den : 0 < (fsub c (flt 3 10)).den := by
    have h : (fsub c (flt 3 10)).den = c.den * 10 := rfl
    rw [h]
    omega
  have hsub : (fsub c (flt 3 10)).toRat = c.toRat - (flt 3 10).toRat :=
    toRat_fsub c (flt 3 10) hcd (by decide)
  have h310 : (flt 3 10).toRat = 3 / 10 := by norm_num [Flt.toRat, flt]
  unfold fmax
  by_cases h : flt_lt (flt 1 10) (fsub c (flt 3 10)) = true
  · rw [if_pos h]
    have hgt := (flt_lt_true_iff _ _ (by decide) hsub_den).mp h
    have h110 : (flt 1 10).toRat = 1 / 10 := by norm_num [Flt.toRat, flt]
    rw [h110] at hgt
    refine ⟨hsub_den, ?_, ?_⟩
    · exact le_of_lt (lt_of_le_of_lt (by norm_num) hgt)
    · rw [hsub, h310]
      linarith
  · rw [if_neg h]
    exact unit_frac_flt 1 10 (by omega) (by omega) (by omega)

/- The final clamp of the scoring stage lands in the unit interval for any
well-formed score. -/
theorem unit_frac_clamp (s : Flt) (hs : 0 < s.den) :
    unit_frac (fmax (flt 0 1) (fmin (flt 1 1) s)) := by
  have hone : unit_frac (flt 1 1) := unit_frac_flt 1 1 (by omega) (by omega) (by omega)
  have hmin_den : 0 < (fmin (flt 1 1) s).den := by
    unfold fmin
    split
    · decide
    · exact hs
  have hmin_le : (fmin (flt 1 1) s).toRat ≤ 1 := by
    unfold fmin
    by_cases h : fle (flt 1 1) s = true
    · rw [if_pos h]
      norm_num [Flt.toRat, flt]
    · rw [if_neg h]
      have hlt : ¬ (flt 1 1).toRat ≤ s.toRat := by
        intro hcon
        exact h ((fle_true_iff _ _ (by decide) hs).mpr hcon)
      have h1q : (flt 1 1).toRat = 1 := by norm_num [Flt.toRat, flt]
      rw [h1q] at hlt
      exact le_of_lt (lt_of_not_le hlt)
  unfold fmax
  by_cases h : flt_lt (flt 0 1) (fmin (flt 1 1) s) = true
  · rw [if_pos h]
    have hgt := (flt_lt_true_iff _ _ (by decide) hmin_den).mp h
    have h0q : (flt 0 1).toRat = 0 := by norm_num [Flt.toRat, flt]
    rw [h0q] at hgt
    exact ⟨hmin_den, le_of_lt hgt, hmin_le⟩
  · rw [if_neg h]
    exact unit_frac_flt 0 1 (by omega) (by omega) (by omega)

/- The accumulated rule-based score is always a well-formed fraction. -/
theorem ml_score_den_pos (full_text : Str) (e : Entity) : 0 < (ml_score full_text e).den := by
  unfold ml_score
  split_ifs <;> decide


/- The semantic stage updates one entity's confidence with either the
geographic bonus or the non-geographic penalty. -/
theorem process_entity_conf (simf : Str → Except String Flt) (e e1 : Entity)
    (h : process_entity simf e = Except.ok e1) :
    e1.confidence = fmin (flt 1 1) (fadd e.confidence (flt 1 5)) ∨
    e1.confidence = fmax (flt 1 10) (fsub e.confidence (flt 3 10)) := by
  unfold process_entity at h
  cases h1 : sim_scores simf (geo_templates.map (fun t => t e.text)) with
  | error m =>
    rw [h1] at h
    exact absurd h (by simp [Bind.bind, Except.bind])
  | ok geo =>
    rw [h1, except_bind_ok] at h
    cases h2 : sim_scores simf (non_geo_templates.map (fun t => t e.text)) with
    | error m =>
      rw [h2] at h
      exact absurd h (by simp [Bind.bind, Except.bind])
    | ok non_geo =>
      rw [h2, except_bind_ok] at h
      split at h
      · cases h
        exact Or.inl rfl
      · cases h
        exact Or.inr rfl

theorem semantic_loop_conf (simf : Str → Except String Flt) : ∀ (es : List Entity),
    (∀ e ∈ es, unit_frac e.confidence) →
    ∀ e1 ∈ semantic_loop simf es, unit_frac e1.confidence
  | [], _, e1, he1 => absurd he1 (List.not_mem_nil e1)
  | e :: rest, h, e1, he1 => by
    unfold semantic_loop at he1
    cases hp : process_entity simf e with
    | ok e2 =>
      rw [hp] at he1
      rcases List.mem_cons.mp he1 with rfl | hr
      · have hu := h e (List.mem_cons_self _ _)
        rcases process_entity_conf simf e e1 hp with hc | hc
        · rw [hc]
          exact unit_frac_min_one_add e.confidence (flt 1 5) hu (by decide)
            (by norm_num [Flt.toRat, flt])
        · rw [hc]
          exact unit_frac_max_tenth_sub e.confidence hu
      · exact semantic_loop_conf simf rest
          (fun x hx => h x (List.mem_cons_of_mem _ hx)) e1 hr
    | error m =>
      rw [hp] at he1
      exact h e1 he1

theorem semantic_stage_conf (sim : Option (Str → Str → Except String Flt))
    (es : List Entity) (text : Str) (h : ∀ e ∈ es, unit_frac e.confidence) :
    ∀ e1 ∈ semantic_context_analysis sim es text, unit_frac e1.confidence := by
  intro e1 he1
  cases sim with
  | none => exact h e1 he1
  | some f =>
    have he1' : e1 ∈ (if es.isEmpty = true then es else semantic_loop (f text) es) := he1
    by_cases hemp : es.isEmpty = true
    · rw [if_pos hemp] at he1'
      exact h e1 he1'
    · rw [if_neg hemp] at he1'
      exact semantic_loop_conf (f text) es h e1 he1'

theorem ml_stage_conf (ml : Bool) (es : List Entity) (text : Str)
    (h : ∀ e ∈ es, unit_frac e.confidence) :
    ∀ es', ml_confidence_scoring ml es text = Except.ok es' →
      ∀ e1 ∈ es', unit_frac e1.confidence := by
  intro es' hok e1 he1
  unfold ml_confidence_scoring at hok
  split at hok
  · cases hok
    exact h e1 he1
  · rw [ml_loop_ok text es es' hok] at he1
    unfold ml_rescored at he1
    rcases List.mem_map.mp he1 with ⟨e, _, rfl⟩
    exact unit_frac_clamp (ml_score text e) (ml_score_den_pos text e)

theorem hier_fold_conf (g : GeoGraph) : ∀ (ks : List Nat) (cur : List Entity),
    (∀ e ∈ cur, unit_frac e.confidence) →
    ∀ e1 ∈ ks.foldl (hier_step g) cur, unit_frac e1.confidence
  | [], cur, h => h
  | k :: ks, cur, h => by
    simp only [List.foldl_cons]
    apply hier_fold_conf g ks
    intro e1 he1
    unfold hier_step at he1
    cases hk : cur.get? k with
    | none =>
      rw [hk] at he1
      exact h e1 he1
    | some e =>
      rw [hk] at he1
      rcases List.mem_or_eq_of_mem_set he1 with hm | he
      · exact h e1 hm
      · have hu := h e (List.get?_mem hk)
        rw [he]
        show unit_frac (if _ then _ else _ : Entity).confidence
        split
        · exact unit_frac_min_one_add e.confidence (flt 3 20) hu (by decide)
            (by norm_num [Flt.toRat, flt])
        · exact hu

theorem hier_stage_conf (g : GeoGraph) (es : List Entity)
    (h : ∀ e ∈ es, unit_frac e.confidence) :
    ∀ e1 ∈ hierarchical_resolution g es, unit_frac e1.confidence :=
  hier_fold_conf g (List.range es.length) es h

/- The recognizer step with its let binding reduced. -/
theorem ner_step_eq (g : GeoGraph) (text : Str) (acc : List Entity) (r : RawEnt) :
    ner_step g text acc r =
      if r.label = str "GPE" ∨ r.label = str "LOC" ∨ r.label = str "ORG" then
        if is_geographic_entity r.text (analyze_syntactic_role r.dep) text = true then
          match resolve_to_official_name g r.text with
          | some name => acc ++ [mk_ner_entity g text r (analyze_syntactic_role r.dep) name]
          | none => acc
        else acc
      else acc := rfl

/- Every entity produced by one recognizer step is either carried over or a
fresh candidate. -/
theorem mem_ner_step (g : GeoGraph) (text : Str) (acc : List Entity) (r : RawEnt)
    (e1 : Entity) (h : e1 ∈ ner_step g text acc r) :
    e1 ∈ acc ∨ ∃ role name, e1 = mk_ner_entity g text r role name := by
  rw [ner_step_eq] at h
  split at h
  · split at h
    · split at h
      · rcases List.mem_append.mp h with hm | hm
        · exact Or.inl hm
        · rcases List.mem_singleton.mp hm with rfl
          exact Or.inr ⟨_, _, rfl⟩
      · exact Or.inl h
    · exact Or.inl h
  · exact Or.inl h

theorem ner_fold_conf (g : GeoGraph) (text : Str) : ∀ (raws : List RawEnt)
    (acc : List Entity), (∀ e ∈ acc, unit_frac e.confidence) →
    ∀ e1 ∈ raws.foldl (ner_step g text) acc, unit_frac e1.confidence
  | [], acc, h => h
  | r :: rest, acc, h => by
    simp only [List.foldl_cons]
    apply ner_fold_conf g text rest
    intro e1 he1
    rcases mem_ner_step g text acc r e1 he1 with hm | ⟨role, name, rfl⟩
    · exact h e1 hm
    · exact unit_frac_flt 4 5 (by omega) (by omega) (by omega)

theorem extraction_conf (g : GeoGraph) (rec : Option (Except String (List RawEnt)))
    (text : Str) (es : List Entity)
    (h : extract_named_entities g rec text = Except.ok es) :
    ∀ e ∈ es, unit_frac e.confidence := by
  intro e he
  unfold extract_named_entities at h
  cases rec with
  | none =>
    cases h
    rw [basic_extraction_eq] at he
    rcases List.mem_map.mp he with ⟨pd, _, rfl⟩
    exact unit_frac_flt 3 5 (by omega) (by omega) (by omega)
  | some resp =>
    cases resp with
    | error m => exact absurd h (by simp [Bind.bind, Except.bind])
    | ok raws =>
      have h' : Except.ok (raws.foldl (ner_step g text) []) = Except.ok es := h
      cases h'
      exact ner_fold_conf g text raws [] (fun x hx => absurd hx (List.not_mem_nil x)) e he

/-- Claim C5: each pipeline stage preserves the invariant that every
mention's confidence is a well-formed fraction with value in [0,1]
(extraction establishes it at 0.8 or 0.6), and consequently every
confidence value in the map returned by classify lies in [0,1]. -/
theorem c5_confidence_in_unit_interval :
    (∀ (g : GeoGraph) (rec : Option (Except String (List RawEnt))) (text : Str)
      (es : List Entity), extract_named_entities g rec text = Except.ok es →
      ∀ e ∈ es, unit_frac e.confidence) ∧
    (∀ (sim : Option (Str → Str → Except String Flt)) (es : List Entity) (text : Str),
      (∀ e ∈ es, unit_frac e.confidence) →
      ∀ e1 ∈ semantic_context_analysis sim es text, unit_frac e1.confidence) ∧
    (∀ (ml : Bool) (es : List Entity) (text : Str),
      (∀ e ∈ es, unit_frac e.confidence) →
      ∀ es', ml_confidence_scoring ml es text = Except.ok es' →
      ∀ e1 ∈ es', unit_frac e1.confidence) ∧
    (∀ (g : GeoGraph) (es : List Entity),
      (∀ e ∈ es, unit_frac e.confidence) →
      ∀ e1 ∈ hierarchical_resolution g es, unit_frac e1.confidence) ∧
    (∀ (g : GeoGraph) (caps : Capabilities) (text : Str) (minConf : Flt)
      (ps : List Str) (scores : List (Str × Flt)),
      classify_text g caps text minConf = Except.ok (ps, scores) →
      ∀ nc ∈ scores, 0 ≤ (nc.2).toRat ∧ (nc.2).toRat ≤ 1) := by
  refine ⟨extraction_conf, semantic_stage_conf, ml_stage_conf, hier_stage_conf, ?_⟩
  intro g caps text minConf ps scores hcl nc hnc
  cases hext : extract_named_entities g caps.recognizer text with
  | error m =>
    unfold classify_text at hcl
    rw [hext] at hcl
    exact absurd hcl (by simp [Bind.bind, Except.bind])
  | ok l =>
    by_cases hemp : l.isEmpty = true
    · have hl0 : l = [] := List.isEmpty_iff.mp hemp
      rw [classify_text_empty g caps text minConf (hl0 ▸ hext)] at hcl
      cases hcl
      exact absurd hnc (List.not_mem_nil _)
    · have hne : l.isEmpty = false := Bool.eq_false_iff.mpr hemp
      cases hml : ml_confidence_scoring caps.ml_present
          (semantic_context_analysis caps.sim l text) text with
      | error m =>
        rw [classify_text_ml_error g caps text minConf l m hext hne hml] at hcl
        exact absurd hcl (by simp)
      | ok scored =>
        rw [classify_text_ok g caps text minConf l scored hext hne hml] at hcl
        cases hcl
        rcases List.mem_map.mp hnc with ⟨e, he, rfl⟩
        have hmem : e ∈ dedup_pass minConf (hierarchical_resolution g scored) [] :=
          (sort_desc_perm _).mem_iff.mp he
        have hstaged := (dedup_pass_mem minConf _ [] e hmem).2.2
        have hunit : unit_frac e.confidence :=
          hier_stage_conf g scored
            (ml_stage_conf caps.ml_present _ text
              (semantic_stage_conf caps.sim l text
                (extraction_conf g caps.recognizer text l hext)) scored hml) e hstaged
        exact ⟨hunit.2.1, hunit.2.2⟩

/-- Witness for C5: the confidence reported for Oakland in the concrete
two-mention run lies in the unit interval. -/
theorem c5_witness : 0 ≤ (flt 7 10).toRat ∧ (flt 7 10).toRat ≤ 1 :=
  c5_confidence_in_unit_interval.2.2.2.2 g_oak caps_two_mentions text_qq (flt 2 5)
    [str "Oakland"] [(str "Oakland", flt 7 10)] (by decide)
    (str "Oakland", flt 7 10) (by decide)

/-- Witness for C4 (amended): the code's accumulated score equals the
spec's additive formula on a concrete mention. -/
theorem c4_witness :
    feq (fmax (flt 0 1) (fmin (flt 1 1) (ml_score text_qq ent_c4)))
      (spec_feature_score text_qq ent_c4) = true :=
  (c4_feature_scoring text_qq [ent_c4]).2.2.2 ent_c4 (by decide)

end AGC
